import Mathlib

/-!
Verification of the incremental chunking / cache-reconciliation engine of
`llm/scripts/generate_outline.py`.

The Python source is shallowly embedded: CSV rows become structures, Python
dicts become association lists keyed by their dict key (insertion order is
preserved, re-assignment keeps the original position, exactly as for Python
dicts), and Python's stable `sorted` becomes `List.insertionSort` (a stable
sort; a stable sort w.r.t. a total preorder is unique, so any stable sort is
extensionally the same function as CPython's timsort).

Python string primitives used by the script are modelled structurally over
`String.data`:
* `str.strip()`               → `pyStrip`
* `str.isdigit()` + `int(_)`  → `pyIsDigit` / `pyToNat`
* `str <= str` (code points)  → `strLeB`
-/

namespace GenOutline

/-- Model of Python `str.strip()`: drop whitespace from both ends. -/
def pyStrip (s : String) : String :=
  ⟨((s.data.dropWhile Char.isWhitespace).reverse.dropWhile Char.isWhitespace).reverse⟩

/-- Model of Python `str.isdigit()`: nonempty and all characters digits. -/
def pyIsDigit (s : String) : Bool :=
  !s.data.isEmpty && s.data.all Char.isDigit

/-- Base-10 value of a digit character list (`foldl`, most significant first). -/
def digitsVal (l : List Char) : Nat :=
  l.foldl (fun a c => 10 * a + (c.toNat - 48)) 0

/-- Model of Python `int(s)` for digit strings. -/
def pyToNat (s : String) : Nat := digitsVal s.data

/-- Lexicographic `≤` on character lists by code point, as Python compares
strings. -/
def lexLeB : List Char → List Char → Bool
  | [], _ => true
  | _ :: _, [] => false
  | a :: as, b :: bs =>
    if a.toNat < b.toNat then true
    else if a.toNat = b.toNat then lexLeB as bs
    else false

/-- Strict lexicographic `<` on character lists by code point. -/
def lexLtB : List Char → List Char → Bool
  | [], [] => false
  | [], _ :: _ => true
  | _ :: _, [] => false
  | a :: as, b :: bs =>
    if a.toNat < b.toNat then true
    else if a.toNat = b.toNat then lexLtB as bs
    else false

/-- Python string `≤` (code-point lexicographic). -/
def strLeB (s t : String) : Bool := lexLeB s.data t.data

/-- Python string `<` (code-point lexicographic). -/
def strLtB (s t : String) : Bool := lexLtB s.data t.data

/-! ## Input items and chapter grouping

One row of the per-book notes CSV, as consumed by `process_csv_file`.
`read_csv_file` keeps only rows with a non-empty `markText`, and
`group_by_chapters` keeps only rows whose `chapterUid` parses as an integer;
an `InputItem` is a row that survived parsing, so `chapterUid` is already a
number (the spec's `groupKey`). -/
structure InputItem where
  chapterUid : Nat
  chapterName : String
  markText : String
  noteId : String
  createTime : String
  reviewContent : String
deriving DecidableEq, Repr

/-- A chapter group: `(chapterUid, rows of that chapter in input order)`. -/
abbrev Group := Nat × List InputItem

/-- One step of `chapters[uid].append(row)` on the `defaultdict(list)`:
append to the existing group, else add a new group at the end. -/
def addToGroups (gs : List Group) (u : Nat) (x : InputItem) : List Group :=
  match gs with
  | [] => [(u, [x])]
  | (k, rows) :: rest =>
    if k = u then (k, rows ++ [x]) :: rest else (k, rows) :: addToGroups rest u x

/-- The `defaultdict` accumulated over all rows, in insertion order. -/
def groupRows (items : List InputItem) : List Group :=
  items.foldl (fun gs x => addToGroups gs x.chapterUid x) []

/-- `group_by_chapters`: group rows by `chapterUid`, sorted ascending by uid
(`dict(sorted(chapters.items()))`). -/
def groupByChapters (items : List InputItem) : List Group :=
  List.insertionSort (fun g₁ g₂ : Group => g₁.1 ≤ g₂.1) (groupRows items)

/-- Count of rows of a chapter with non-empty (stripped) `markText`
(`len([row for row in chapter_rows if row.get('markText','').strip()])`). -/
def notesCount (rows : List InputItem) : Nat :=
  rows.countP (fun r => pyStrip r.markText != "")

/-! ## Chunk planning (`process_csv_file`, first step)

The inner `while j < len(chapter_uids) and total_notes < min_notes_per_group`
loop greedily takes whole chapters until the running count of marked notes
reaches the threshold; the outer `while i < len(chapter_uids)` loop repeats
from the next chapter. -/

/-- The inner accumulation loop: starting from running count `total`, split
off the chapters of the current chunk. Returns `(chunk chapters, rest)`. -/
def grabGroups (minCount : Nat) : Nat → List Group → List Group × List Group
  | _, [] => ([], [])
  | total, g :: gs =>
    if total < minCount then
      let pr := grabGroups minCount (total + notesCount g.2) gs
      (g :: pr.1, pr.2)
    else ([], g :: gs)

/-- The outer loop, fuelled by the length of the chapter list (each pass
consumes at least one chapter, so `fuel = length` suffices). The
`pr.1 = []` test models `if not group_chapters: break`. -/
def splitGo (minCount : Nat) : Nat → List Group → List (List Group)
  | 0, _ => []
  | _, [] => []
  | fuel + 1, g :: rest =>
    let pr := grabGroups minCount 0 (g :: rest)
    if pr.1 = [] then [] else pr.1 :: splitGo minCount fuel pr.2

/-- Partition the (sorted) chapter groups into chunks of at least `minCount`
marked notes each (the last chunk may be short). -/
def splitIntoChunks (minCount : Nat) (gs : List Group) : List (List Group) :=
  splitGo minCount gs.length gs

/-- The member items of a chunk: all rows of its chapters. -/
def memberItems (c : List Group) : List InputItem :=
  (c.map (·.2)).flatten

/-- Sort key used for rows inside a chapter:
`int(createTime) if createTime.strip().isdigit() else 0`. -/
def ctKey (r : InputItem) : Nat :=
  if pyIsDigit (pyStrip r.createTime) then pyToNat (pyStrip r.createTime) else 0

/-- `sorted(chapter_rows, key=...)` — Python's sort is stable, as is
`insertionSort`. -/
def sortRowsByTime (rows : List InputItem) : List InputItem :=
  List.insertionSort (fun a b : InputItem => ctKey a ≤ ctKey b) rows

/-- `note_id = row.get('noteId','').strip() or row.get('createTime','').strip()`. -/
def noteIdOf (r : InputItem) : String :=
  if pyStrip r.noteId != "" then pyStrip r.noteId else pyStrip r.createTime

/-- `chapter_rows[0].get('chapterName', f'章节…') if chapter_rows else …`. -/
def chapterTitle (g : Group) : String :=
  match g.2.head? with
  | some r => r.chapterName
  | none => "章节" ++ Nat.repr g.1

/-- The `mark_notes_parts` contributed by one chapter: the chapter title,
then one bullet per marked row (rows in `createTime` order). -/
def markNotesOfGroup (g : Group) : List String :=
  chapterTitle g ::
    ((sortRowsByTime g.2).filter (fun r => pyStrip r.markText != "")).map
      (fun r => "- " ++ pyStrip r.markText)

/-- The `review_notes_parts` contributed by one chapter. -/
def reviewNotesOfGroup (g : Group) : List String :=
  (sortRowsByTime g.2).filterMap fun r =>
    if pyStrip r.reviewContent != "" then
      some ("【原文】：" ++ pyStrip r.markText ++ "【点评】：" ++ pyStrip r.reviewContent)
    else none

/-- All `mark_notes_parts` of a chunk. -/
def chunkMarkParts (c : List Group) : List String :=
  (c.map markNotesOfGroup).flatten

/-- All `review_notes_parts` of a chunk. -/
def chunkReviewParts (c : List Group) : List String :=
  (c.map reviewNotesOfGroup).flatten

/-- The note ids recorded while scanning a chunk: one per marked row whose
`noteId`-or-`createTime` is non-empty, in scan order. `first_note_id` and
`last_note_id` are the head and last of this list. -/
def chunkNoteIds (c : List Group) : List String :=
  (c.map fun g =>
      ((sortRowsByTime g.2).filter (fun r => pyStrip r.markText != "")).filterMap
        (fun r => if noteIdOf r != "" then some (noteIdOf r) else none)).flatten

/-- First chapter uid of a chunk (`group_chapters[0]`). -/
def startChapterOf (c : List Group) : Nat :=
  match c with
  | [] => 0
  | g :: _ => g.1

/-- Last chapter uid of a chunk (`group_chapters[-1]`). -/
def endChapterOf (c : List Group) : Nat :=
  match c.getLast? with
  | some g => g.1
  | none => 0

/-- `block_id = f"⟨start_chapter⟩-⟨first_note_id or 0⟩-⟨end_chapter⟩-⟨last_note_id or 0⟩"`. -/
def mkBlockId (sc : Nat) (fn : Option String) (ec : Nat) (ln : Option String) : String :=
  Nat.repr sc ++ "-" ++ fn.getD "0" ++ "-" ++ Nat.repr ec ++ "-" ++ ln.getD "0"

/-- One entry of `all_block_definitions`. -/
structure BlockDef where
  group_idx : Nat
  block_id : String
  start_chapter : Nat
  end_chapter : Nat
  start_note_id : String
  end_note_id : String
  group_chapters : List Nat
  chapter_names : List String
  mark_notes_parts : List String
  review_notes_parts : List String
  total_notes : Nat
deriving DecidableEq, Repr

/-- Build the block definition of one chunk. -/
def mkBlockDef (idx : Nat) (c : List Group) : BlockDef :=
  let ids := chunkNoteIds c
  { group_idx := idx
    block_id := mkBlockId (startChapterOf c) ids.head? (endChapterOf c) ids.getLast?
    start_chapter := startChapterOf c
    end_chapter := endChapterOf c
    start_note_id := ids.head?.getD ""
    end_note_id := ids.getLast?.getD ""
    group_chapters := c.map (·.1)
    chapter_names := c.map chapterTitle
    mark_notes_parts := chunkMarkParts c
    review_notes_parts := chunkReviewParts c
    total_notes := (c.map (fun g => notesCount g.2)).sum }

/-- Walk the chunks assigning `group_idx` 1, 2, …; a chunk with no
`mark_notes_parts` is skipped (`if not mark_notes_parts: continue`) but still
consumes an index, exactly as in the source (the branch is in fact dead,
since every chapter contributes its title). -/
def mkBlockDefs : Nat → List (List Group) → List BlockDef
  | _, [] => []
  | idx, c :: cs =>
    if chunkMarkParts c = [] then mkBlockDefs (idx + 1) cs
    else mkBlockDef idx c :: mkBlockDefs (idx + 1) cs

/-- The full planning step: `all_block_definitions` as a function of the
input items and the minimum notes-per-chunk threshold (50 in the script). -/
def planBlocks (items : List InputItem) (minCount : Nat) : List BlockDef :=
  mkBlockDefs 1 (splitIntoChunks minCount (groupByChapters items))

/-! ## The persisted chunk store (`⟨book_id⟩_outline_blocks.csv`)

One CSV row of the block cache. String cell values are modelled post-`strip`
for the columns the loader strips (`block_id` and the four boundary
columns); none of the claims depend on surrounding whitespace. -/
structure StoreRecord where
  block_id : String
  start_chapter : String
  end_chapter : String
  start_note_id : String
  end_note_id : String
  markdown : String
  html : String
  created_at : String
  updated_at : String
deriving DecidableEq, Repr

/-- Python dict assignment `m[r.block_id] = r`: re-assignment replaces the
value but keeps the key's original position; a new key is appended. -/
def insertRecord (m : List StoreRecord) (r : StoreRecord) : List StoreRecord :=
  if m.any (fun x => x.block_id == r.block_id) then
    m.map (fun x => if x.block_id == r.block_id then r else x)
  else m ++ [r]

/-- Loading `existing_blocks` (and `existing_blocks_info`, merged here into
the same record): rows with an empty `block_id` are skipped, the rest enter
a dict keyed by `block_id`. -/
def loadBlocks (rows : List StoreRecord) : List StoreRecord :=
  rows.foldl (fun m r => if r.block_id == "" then m else insertRecord m r) []

/-- StartKey of a stored record, from its own columns
(`f"{start_chapter}-{start_note_id}"`). -/
def startKeyRec (r : StoreRecord) : String :=
  r.start_chapter ++ "-" ++ r.start_note_id

/-- StartKey of a planned block (`f"{start_chapter}-{start_note_id}"`,
where `start_chapter` is an `int`). -/
def startKeyDef (d : BlockDef) : String :=
  Nat.repr d.start_chapter ++ "-" ++ d.start_note_id

/-! ## Reconciliation (`process_csv_file`, second step) -/

/-- The outcome of classifying every planned block:
`blocks_to_use_cache` / `blocks_to_update` / `blocks_to_generate`. -/
structure Reconciled where
  toCache : List (String × StoreRecord)
  toUpdate : List (BlockDef × StoreRecord)
  toGenerate : List BlockDef
deriving Repr

/-- Classify one planned block:
1. exact `block_id` match → cache;
2. else first stored record (in store-iteration order) with the same
   StartKey → update/replace;
3. else → generate. -/
def classify (existing : List StoreRecord) (acc : Reconciled) (d : BlockDef) : Reconciled :=
  match existing.find? (fun r => r.block_id == d.block_id) with
  | some r => { acc with toCache := acc.toCache ++ [(d.block_id, r)] }
  | none =>
    match existing.find? (fun r => startKeyRec r == startKeyDef d) with
    | some r => { acc with toUpdate := acc.toUpdate ++ [(d, r)] }
    | none => { acc with toGenerate := acc.toGenerate ++ [d] }

/-- Classify every planned block, in plan order. -/
def reconcile (plan : List BlockDef) (existing : List StoreRecord) : Reconciled :=
  plan.foldl (classify existing) ⟨[], [], []⟩

/-- What `classify` contributes to `blocks_to_use_cache` for one block. -/
def cacheSel (existing : List StoreRecord) (d : BlockDef) : Option (String × StoreRecord) :=
  (existing.find? (fun r => r.block_id == d.block_id)).map (fun r => (d.block_id, r))

/-- What `classify` contributes to `blocks_to_update` for one block. -/
def updateSel (existing : List StoreRecord) (d : BlockDef) : Option (BlockDef × StoreRecord) :=
  match existing.find? (fun r => r.block_id == d.block_id) with
  | some _ => none
  | none => (existing.find? (fun r => startKeyRec r == startKeyDef d)).map (fun r => (d, r))

/-- What `classify` contributes to `blocks_to_generate` for one block. -/
def genSel (existing : List StoreRecord) (d : BlockDef) : Option BlockDef :=
  match existing.find? (fun r => r.block_id == d.block_id),
      existing.find? (fun r => startKeyRec r == startKeyDef d) with
  | none, none => some d
  | _, _ => none

/-- Number of `generator.generate_outline` invocations of a run: one per
entry of `blocks_to_generate` (third step) and per entry of
`blocks_to_update` (fourth step); cached blocks never call the generator. -/
def llmCalls (rc : Reconciled) : Nat :=
  rc.toGenerate.length + rc.toUpdate.length

/-- The record appended to `new_blocks` for a fresh block: both timestamps
are `now` (`start_chapter`/`end_chapter` are written to CSV as `str(int)`). -/
def freshRecord (gen : BlockDef → String × String) (now : String) (d : BlockDef) : StoreRecord :=
  { block_id := d.block_id
    start_chapter := Nat.repr d.start_chapter
    end_chapter := Nat.repr d.end_chapter
    start_note_id := d.start_note_id
    end_note_id := d.end_note_id
    markdown := (gen d).1
    html := (gen d).2
    created_at := now
    updated_at := now }

/-- The record appended to `new_blocks` for a replaced block:
`created_at` is taken from the old record
(`old_block_data.get('created_at', current_time)`; the key is always
present after loading, so the default is dead), `updated_at` is `now`. -/
def updateRecord (gen : BlockDef → String × String) (now : String)
    (p : BlockDef × StoreRecord) : StoreRecord :=
  { freshRecord gen now p.1 with created_at := p.2.created_at }

/-- `new_blocks`: the records produced by the third step (fresh) followed by
the fourth step (updates), in work-list order. -/
def newBlocks (gen : BlockDef → String × String) (now : String) (rc : Reconciled) :
    List StoreRecord :=
  rc.toGenerate.map (freshRecord gen now) ++ rc.toUpdate.map (updateRecord gen now)

/-- Sort key for saving/assembly:
`(int(start_chapter) if start_chapter.isdigit() else 0, start_note_id)`. -/
def chapKey (s : String) : Nat :=
  if pyIsDigit s then pyToNat s else 0

/-- Sort key of a record. -/
def recSortKey (r : StoreRecord) : Nat × String :=
  (chapKey r.start_chapter, r.start_note_id)

/-- Python tuple `≤` on `(int, str)` sort keys. -/
def pairLEb (a b : Nat × String) : Bool :=
  Nat.blt a.1 b.1 || (a.1 == b.1 && strLeB a.2 b.2)

/-- Python's stable `sorted(blocks, key=recSortKey)`. -/
def sortRecords (l : List StoreRecord) : List StoreRecord :=
  List.insertionSort (fun r₁ r₂ => pairLEb (recSortKey r₁) (recSortKey r₂) = true) l

/-- `all_blocks_to_save` before sorting: keep every loaded record that is
neither an overwritten replace-source (`old_block_ids_to_remove`) nor
obsolete (StartKey not among the planned StartKeys), refreshing its
`updated_at`; then insert all `new_blocks`, overwriting by `block_id`. -/
def buildSaveMap (existing : List StoreRecord) (plan : List BlockDef)
    (rc : Reconciled) (nb : List StoreRecord) (now : String) : List StoreRecord :=
  let oldIds := rc.toUpdate.map (fun p => p.2.block_id)
  let planKeys := plan.map startKeyDef
  let kept := existing.filter
    (fun r => !(oldIds.contains r.block_id) && planKeys.contains (startKeyRec r))
  let m := kept.foldl (fun m r => insertRecord m { r with updated_at := now }) []
  nb.foldl insertRecord m

/-- The rows written back to the cache CSV, sorted by
`(int(start_chapter), start_note_id)`. -/
def saveBlocks (existing : List StoreRecord) (plan : List BlockDef)
    (rc : Reconciled) (nb : List StoreRecord) (now : String) : List StoreRecord :=
  sortRecords (buildSaveMap existing plan rc nb now)

/-- One full reconcile-and-save pass: load the store rows, plan the blocks,
classify, generate (`gen` is the external generation call, an oracle here),
and save. Returns the rows of the rewritten store file. -/
def runSave (gen : BlockDef → String × String) (now : String)
    (existingRaw : List StoreRecord) (items : List InputItem) (minCount : Nat) :
    List StoreRecord :=
  let existing := loadBlocks existingRaw
  let plan := planBlocks items minCount
  let rc := reconcile plan existing
  saveBlocks existing plan rc (newBlocks gen now rc) now

/-! ## Assembly (last step of `process_csv_file`)

The saved CSV is re-read and re-sorted by the same key; blocks are emitted
in that order with a fresh 1-based ordinal each. -/

/-- The order in which the assembled document lists the chunk records. -/
def assembleOrder (rows : List StoreRecord) : List StoreRecord :=
  sortRecords rows

/-- The sequence of sort keys of the assembled document. -/
def assembleKeys (rows : List StoreRecord) : List (Nat × String) :=
  (assembleOrder rows).map recSortKey

/-! ## Store loading failure (`except Exception as e: print(...)`)

The reader loop fills `existing_blocks` row by row inside a `try`; on any
exception the handler only prints a warning, so the run continues with the
rows read before the failure (possibly none). `readFailed` records whether
the exception occurred; the handler ignores it. -/

/-- `existing_blocks` after the `try/except` around the cache reader. -/
def loadCacheResult (rowsRead : List StoreRecord) (readFailed : Bool) : List StoreRecord :=
  match readFailed with
  | true => loadBlocks rowsRead
  | false => loadBlocks rowsRead

/-- Generation calls performed by a run whose store load read `rowsRead`
and then failed iff `readFailed`. -/
def runGenerationCalls (rowsRead : List StoreRecord) (readFailed : Bool)
    (items : List InputItem) (minCount : Nat) : Nat :=
  llmCalls (reconcile (planBlocks items minCount) (loadCacheResult rowsRead readFailed))

/-! ## `OutlineGenerator.generate_outline`

The external call `client.models.generate_content` is an oracle
`Nat → Except String String` (attempt number ↦ response text, or the message
of the exception it raised). The Python `dict` result is modelled as an
association list, so that "contains the key" is a real statement. -/

/-- Lower-case ASCII letter (the `[a-z]` character class). -/
def isLowerAlpha (c : Char) : Bool := 97 ≤ c.toNat && c.toNat ≤ 122

/-- Python `s.split('\n')`. -/
def splitCharList (sep : Char) : List Char → List (List Char)
  | [] => [[]]
  | c :: cs =>
    let r := splitCharList sep cs
    if c = sep then [] :: r
    else
      match r with
      | [] => [[c]]
      | h :: t => (c :: h) :: t

/-- Lines of a string, Python `str.split('\n')` style. -/
def pySplitLines (s : String) : List (List Char) := splitCharList '\n' s.data

/-- Python `'\n'.join(lines)`. -/
def joinLines (ls : List (List Char)) : String := ⟨List.intercalate ['\n'] ls⟩

/-- Python `s.startswith(pre)`. -/
def startsWithStr (s pre : String) : Bool := pre.data.isPrefixOf s.data

/-- The initial code-fence block extraction: when the response starts with
triple backticks, keep the lines strictly between the opening line and the
first later line whose stripped form starts with triple backticks. -/
def extractFenceBlock (s : String) : String :=
  match pySplitLines s with
  | [] => ""
  | _ :: rest =>
    match rest.findIdx? (fun l => startsWithStr (pyStrip ⟨l⟩) "```") with
    | some i => joinLines (rest.take i)
    | none => joinLines rest

/-- Effect of the `MULTILINE` substitution removing `\x60\x60\x60[a-z]*\n?`
at a line start, on one line: `none` means the line and its newline vanish,
`some l` is the remaining line content. -/
def fenceOpenLine (l : List Char) : Option (List Char) :=
  if ['`', '`', '`'].isPrefixOf l then
    let rest := (l.drop 3).dropWhile isLowerAlpha
    if rest.isEmpty then none else some rest
  else some l

/-- Reassemble lines after `fenceOpenLine`; a deleted last line leaves an
empty line (its optional newline did not exist, so only the backticks were
removed). -/
def resolveFenceOpens : List (Option (List Char)) → List (List Char)
  | [] => []
  | [o] =>
    match o with
    | some l => [l]
    | none => [[]]
  | o :: rest =>
    match o with
    | some l => l :: resolveFenceOpens rest
    | none => resolveFenceOpens rest

/-- The `MULTILINE` substitution removing a line-initial code fence marker. -/
def stripFenceOpenLines (s : String) : String :=
  joinLines (resolveFenceOpens ((pySplitLines s).map fenceOpenLine))

/-- Effect of the `MULTILINE` substitution removing `\n?\x60\x60\x60` at a
line end, on one line: a line that is exactly the three backticks vanishes
together with its preceding newline (for the first line there is none, so an
empty line remains); otherwise a trailing fence marker is cut off. -/
def fenceCloseLine (isFirst : Bool) (l : List Char) : Option (List Char) :=
  if l = ['`', '`', '`'] then (if isFirst then some [] else none)
  else if ['`', '`', '`'].isSuffixOf l then some (l.dropLast.dropLast.dropLast)
  else some l

/-- The `MULTILINE` substitution removing a line-final code fence marker. -/
def stripFenceCloseLines (s : String) : String :=
  match pySplitLines s with
  | [] => ""
  | l :: rest =>
    joinLines
      ((match fenceCloseLine true l with
        | some x => [x]
        | none => []) ++ rest.filterMap (fenceCloseLine false))

/-- `if s.startswith(q) and s.endswith(q): s = s[1:-1]`. -/
def stripQuotePair (s : String) (q : Char) : String :=
  if s.data.head? = some q ∧ s.data.getLast? = some q then ⟨(s.data.drop 1).dropLast⟩
  else s

/-- The response post-processing pipeline applied after the initial strip:
fence-block extraction, the two fence-marker substitutions, strip, quote
removal (double then single), strip. -/
def postProcess (stripped : String) : String :=
  let t2 := if startsWithStr stripped "```" then extractFenceBlock stripped else stripped
  let t3 := stripFenceOpenLines t2
  let t4 := stripFenceCloseLines t3
  let t5 := pyStrip t4
  let t6 := stripQuotePair t5 '"'
  let t7 := stripQuotePair t6 '\''
  pyStrip t7

/-- Occurrence of `<[hH][1-6]` anywhere in the text. -/
def hasHeadingTag : List Char → Bool
  | '<' :: c :: d :: rest =>
    ((c = 'h' || c = 'H') && (49 ≤ d.toNat && d.toNat ≤ 54)) || hasHeadingTag (c :: d :: rest)
  | _ :: rest => hasHeadingTag rest
  | [] => false

/-- Occurrence of `<[pP]` anywhere in the text. -/
def hasPTag : List Char → Bool
  | '<' :: c :: rest => (c = 'p' || c = 'P') || hasPTag (c :: rest)
  | _ :: rest => hasPTag rest
  | [] => false

/-- `_clean_html_string`: drop control characters except `\n`, `\r`, `\t`. -/
def cleanCtrlChars (l : List Char) : List Char :=
  l.filter fun c => !(c.toNat < 32 && !(c = '\n' || c = '\r' || c = '\t'))

/-- `_validate_and_clean_html`: empty or tag-free text is rejected
(`None`); otherwise the control-character-cleaned text is returned (the
source's final `<html` test returns `cleaned_html` on both branches). -/
def validateAndCleanHtml (s : String) : Option String :=
  if s == "" || pyStrip s == "" then none
  else if !hasHeadingTag s.data && !hasPTag s.data then none
  else some ⟨cleanCtrlChars s.data⟩

/-- Tag removal pass of `_html_to_markdown` (`<[^>]+>` → empty). The flag
says whether the scanner is inside a tag. -/
def stripTagsGo (inTag : Bool) : List Char → List Char
  | [] => []
  | c :: rest =>
    if inTag then
      if c = '>' then stripTagsGo false rest else stripTagsGo true rest
    else if c = '<' then stripTagsGo true rest
    else c :: stripTagsGo false rest

/-- Blank-line collapsing pass of `_html_to_markdown`
(`\n\x7b3,\x7d` → two newlines); `pending` counts the newline run read so far. -/
def collapseNlGo (pending : Nat) : List Char → List Char
  | [] => List.replicate (min pending 2) '\n'
  | c :: rest =>
    if c = '\n' then collapseNlGo (pending + 1) rest
    else List.replicate (min pending 2) '\n' ++ c :: collapseNlGo 0 rest

/-- `_html_to_markdown`, modelled by its dominant passes: the heading,
paragraph and bold rewrites only re-punctuate text that the final
tag-removal pass keeps, so we model tag removal, blank-line collapsing and
the final strip. -/
def htmlToMarkdown (s : String) : String :=
  pyStrip ⟨collapseNlGo 0 (stripTagsGo false s.data)⟩

/-- `html.escape` (with quoting), expressed as a character map — equivalent
to the chained `str.replace` calls since `&` is replaced first. -/
def escapeHtmlChar (c : Char) : List Char :=
  if c = '&' then "&amp;".data
  else if c = '<' then "&lt;".data
  else if c = '>' then "&gt;".data
  else if c = '"' then "&quot;".data
  else if c = '\'' then "&#x27;".data
  else [c]

/-- Python `html.escape(s)`. -/
def escapeHtml (s : String) : String := ⟨s.data.flatMap escapeHtmlChar⟩

/-- Python `s[:n]`. -/
def pyTake (n : Nat) (s : String) : String := ⟨s.data.take n⟩

/-- The unanchored substitution removing `\x60\x60\x60[a-z]*\n?` anywhere
(used on the error text); fuelled by the list length. -/
def stripFenceAnyGoA : Nat → List Char → List Char
  | 0, l => l
  | fuel + 1, l =>
    match l with
    | '`' :: '`' :: '`' :: rest =>
      let r1 := rest.dropWhile isLowerAlpha
      let r2 :=
        match r1 with
        | '\n' :: t => t
        | _ => r1
      stripFenceAnyGoA fuel r2
    | c :: rest => c :: stripFenceAnyGoA fuel rest
    | [] => []

/-- The unanchored substitution removing `\n?\x60\x60\x60` anywhere. -/
def stripFenceAnyGoB : Nat → List Char → List Char
  | 0, l => l
  | fuel + 1, l =>
    match l with
    | '\n' :: '`' :: '`' :: '`' :: rest => stripFenceAnyGoB fuel rest
    | '`' :: '`' :: '`' :: rest => stripFenceAnyGoB fuel rest
    | c :: rest => c :: stripFenceAnyGoB fuel rest
    | [] => []

/-- Escape and fence-clean an error text for the `<pre>` placeholder. -/
def errorText (s : String) : String :=
  let e := (escapeHtml s).data
  ⟨stripFenceAnyGoB (stripFenceAnyGoA e.length e).length (stripFenceAnyGoA e.length e)⟩

/-- `last_response_text[:1000] if last_response_text else '无响应'`
(Python truthiness: `None` and the empty string both fall back). -/
def lastRespText (lastResp : Option String) : String :=
  match lastResp with
  | some t => if t == "" then "无响应" else pyTake 1000 t
  | none => "无响应"

/-- The dictionary returned when the last attempt's response fails HTML
validation. -/
def validationFailResult (respText : String) : List (String × String) :=
  [("markdown", "HTML 格式验证失败\n\n原始响应：\n" ++ pyTake 1000 respText),
   ("html", "<html><body><p>HTML 格式验证失败</p><pre>" ++
     errorText (pyTake 1000 respText) ++ "</pre></body></html>")]

/-- The dictionary returned when the last attempt raised an exception. -/
def exceptionResult (e : String) (lastResp : Option String) : List (String × String) :=
  [("markdown", "生成大纲时出错：" ++ e),
   ("html", "<html><body><p>生成大纲时出错：" ++ e ++ "</p><pre>" ++
     errorText (lastRespText lastResp) ++ "</pre></body></html>")]

/-- The dictionary returned after the attempt loop (reachable only when
`max_retries` is zero, with `last_error = None`, printed as `None`). -/
def exhaustedResult (maxRetries : Nat) (lastErr : Option String)
    (lastResp : Option String) : List (String × String) :=
  let errStr :=
    match lastErr with
    | some e => e
    | none => "None"
  [("markdown", "生成大纲失败（已重试 " ++ Nat.repr maxRetries ++ " 次）：" ++ errStr ++
     "\n\n原始响应：\n" ++ lastRespText lastResp),
   ("html", "<html><body><p>生成大纲失败（已重试 " ++ Nat.repr maxRetries ++ " 次）：" ++
     errStr ++ "</p><pre>" ++ errorText (lastRespText lastResp) ++ "</pre></body></html>")]

/-- The `for attempt in range(max_retries)` loop. `fuel` equals
`maxRetries - attempt`, so structural recursion on it reproduces the loop;
falling out of the loop yields `exhaustedResult`. -/
def genLoop (behavior : Nat → Except String String) (maxRetries : Nat) :
    Nat → Nat → Option String → Option String → List (String × String)
  | 0, _, lastErr, lastResp => exhaustedResult maxRetries lastErr lastResp
  | fuel + 1, attempt, lastErr, lastResp =>
    if attempt < maxRetries then
      match behavior attempt with
      | .ok raw =>
        let stripped := pyStrip raw
        let processed := postProcess stripped
        match validateAndCleanHtml processed with
        | some htmlC => [("markdown", htmlToMarkdown htmlC), ("html", htmlC)]
        | none =>
          if attempt < maxRetries - 1 then
            genLoop behavior maxRetries fuel (attempt + 1) (some "HTML 格式验证失败")
              (some stripped)
          else validationFailResult processed
      | .error e =>
        if attempt < maxRetries - 1 then
          genLoop behavior maxRetries fuel (attempt + 1) (some e) lastResp
        else exceptionResult e lastResp
    else exhaustedResult maxRetries lastErr lastResp

/-- `prompt = TEMPLATE.replace('\x7b\x7b划线笔记\x7d\x7d', mark).replace('\x7b\x7b点评笔记\x7d\x7d', review)`. -/
def buildPrompt (template markNotes reviewNotes : String) : String :=
  (template.replace "\x7b\x7b划线笔记\x7d\x7d" markNotes).replace "\x7b\x7b点评笔记\x7d\x7d" reviewNotes

/-- `OutlineGenerator.generate_outline`: build the prompt and run the retry
loop; the oracle receives the prompt and the attempt number. -/
def generateOutline (template markNotes reviewNotes : String)
    (behavior : String → Nat → Except String String) (maxRetries : Nat) :
    List (String × String) :=
  genLoop (behavior (buildPrompt template markNotes reviewNotes)) maxRetries maxRetries 0
    none none

/-! ## Key orders and concrete scenario inputs -/

/-- Non-strict order on `(int, str)` sort keys (Python tuple `≤`). -/
def keyLE (a b : Nat × String) : Prop := pairLEb a b = true

/-- Strict order on `(int, str)` sort keys (Python tuple `<`). -/
def keyLT (a b : Nat × String) : Prop :=
  a.1 < b.1 ∨ (a.1 = b.1 ∧ strLtB a.2 b.2 = true)

instance : DecidableRel keyLT := fun a b => by
  unfold keyLT
  exact inferInstance

/-- The `(startGroupKey, startSequenceKey)` pair of a planned block. -/
def defStartPair (d : BlockDef) : Nat × String := (d.start_chapter, d.start_note_id)

/-- A one-line input item for concrete scenarios. -/
def mkItem (u : Nat) (nid mk : String) : InputItem :=
  { chapterUid := u, chapterName := "c", markText := mk, noteId := nid,
    createTime := "1", reviewContent := "" }

/-- Two chapters with one marked note each: planned as a single chunk
`1-n1-2-n2` (threshold 50 not reached before the input is exhausted). -/
def itemsTwoCh : List InputItem := [mkItem 1 "n1" "a", mkItem 2 "n2" "b"]

/-- A stored row whose `block_id` matches the plan of `itemsTwoCh` exactly,
but whose start-key columns disagree with it (`99-x`). -/
def rowInconsistent : StoreRecord :=
  { block_id := "1-n1-2-n2", start_chapter := "99", end_chapter := "2",
    start_note_id := "x", end_note_id := "n2", markdown := "m", html := "h",
    created_at := "T0", updated_at := "T0" }

/-- A constant generation oracle for concrete scenarios. -/
def genConst : BlockDef → String × String := fun _ => ("gm", "gh")

/-- One chapter with two marked notes: planned as the single chunk
`1-a-1-b`. -/
def itemsOneCh : List InputItem := [mkItem 1 "a" "x", mkItem 1 "b" "y"]

/-- First stored row with StartKey `1-a` (store-iteration order). -/
def rowDupA : StoreRecord :=
  { block_id := "1-a-1-zz", start_chapter := "1", end_chapter := "1",
    start_note_id := "a", end_note_id := "zz", markdown := "m1", html := "h1",
    created_at := "T0", updated_at := "T0" }

/-- Second stored row with the same StartKey `1-a`. -/
def rowDupB : StoreRecord :=
  { block_id := "1-a-1-z2", start_chapter := "1", end_chapter := "1",
    start_note_id := "a", end_note_id := "z2", markdown := "m2", html := "h2",
    created_at := "T0", updated_at := "T0" }

/-! ## Facts about decimal representations

`f"⟨n⟩-⟨s⟩"` keys are compared as strings by the script; these lemmas show
that distinct chapter numbers yield distinct keys. -/

theorem digitChar_isDigit {m : Nat} (h : m < 10) : (Nat.digitChar m).isDigit = true := by
  interval_cases m <;> decide

theorem digitChar_toNat {m : Nat} (h : m < 10) : (Nat.digitChar m).toNat = m + 48 := by
  interval_cases m <;> decide

theorem toDigitsCore_append (b : Nat) :
    ∀ (f n : Nat) (ds : List Char),
      Nat.toDigitsCore b f n ds = Nat.toDigitsCore b f n [] ++ ds := by
  intro f
  induction f with
  | zero => intro n ds; simp [Nat.toDigitsCore]
  | succ f ih =>
    intro n ds
    simp only [Nat.toDigitsCore]
    by_cases h : n / b = 0
    · simp [h]
    · simp only [h, if_false]
      rw [ih (n / b) [Nat.digitChar (n % b)], ih (n / b) (Nat.digitChar (n % b) :: ds)]
      simp

theorem mem_toDigitsCore {c : Char} :
    ∀ (f n : Nat) (ds : List Char), c ∈ Nat.toDigitsCore 10 f n ds →
      c ∈ ds ∨ c.isDigit = true := by
  intro f
  induction f with
  | zero => intro n ds h; exact Or.inl h
  | succ f ih =>
    intro n ds h
    simp only [Nat.toDigitsCore] at h
    by_cases h0 : n / 10 = 0
    · simp only [h0, if_true] at h
      rcases List.mem_cons.mp h with h | h
      · exact Or.inr (h ▸ digitChar_isDigit (Nat.mod_lt _ (by omega)))
      · exact Or.inl h
    · simp only [h0, if_false] at h
      rcases ih (n / 10) (Nat.digitChar (n % 10) :: ds) h with h | h
      · rcases List.mem_cons.mp h with h | h
        · exact Or.inr (h ▸ digitChar_isDigit (Nat.mod_lt _ (by omega)))
        · exact Or.inl h
      · exact Or.inr h

theorem digitsVal_append_singleton (l : List Char) (c : Char) :
    digitsVal (l ++ [c]) = 10 * digitsVal l + (c.toNat - 48) := by
  simp [digitsVal, List.foldl_append]

theorem digitsVal_toDigitsCore :
    ∀ f n : Nat, n < f → digitsVal (Nat.toDigitsCore 10 f n []) = n := by
  intro f
  induction f with
  | zero => omega
  | succ f ih =>
    intro n hn
    simp only [Nat.toDigitsCore]
    by_cases h0 : n / 10 = 0
    · simp only [h0, if_true]
      have hlt : n % 10 < 10 := Nat.mod_lt _ (by omega)
      have hmod : n % 10 = n := by omega
      have hn10 : n < 10 := by omega
      simp [digitsVal, hmod, digitChar_toNat hn10]
    · simp only [h0, if_false]
      rw [toDigitsCore_append 10 f (n / 10) [Nat.digitChar (n % 10)],
        digitsVal_append_singleton]
      have h1 : 0 < n := by
        rcases Nat.eq_zero_or_pos n with h | h
        · exact absurd (by simp [h]) h0
        · exact h
      have h2 : n / 10 < f := lt_of_lt_of_le (Nat.div_lt_self h1 (by omega)) (by omega)
      rw [ih (n / 10) h2, digitChar_toNat (Nat.mod_lt _ (by omega))]
      omega

theorem repr_data (n : Nat) : (Nat.repr n).data = Nat.toDigits 10 n := rfl

theorem repr_data_digits {n : Nat} {c : Char} (h : c ∈ (Nat.repr n).data) :
    c.isDigit = true := by
  rw [repr_data] at h
  rcases mem_toDigitsCore (n + 1) n [] h with h | h
  · exact absurd h (List.not_mem_nil c)
  · exact h

theorem repr_injective {m n : Nat} (h : Nat.repr m = Nat.repr n) : m = n := by
  have hm : digitsVal (Nat.repr m).data = m := digitsVal_toDigitsCore (m + 1) m (by omega)
  have hn : digitsVal (Nat.repr n).data = n := digitsVal_toDigitsCore (n + 1) n (by omega)
  rw [← hm, ← hn, h]

theorem append_sep_inj {sep : Char} :
    ∀ (l₁ l₂ t₁ t₂ : List Char), (∀ c ∈ l₁, c ≠ sep) → (∀ c ∈ l₂, c ≠ sep) →
      l₁ ++ sep :: t₁ = l₂ ++ sep :: t₂ → l₁ = l₂ ∧ t₁ = t₂ := by
  intro l₁
  induction l₁ with
  | nil =>
    intro l₂ t₁ t₂ _ h₂ heq
    cases l₂ with
    | nil => simpa using heq
    | cons b bs =>
      simp only [List.nil_append, List.cons_append, List.cons.injEq] at heq
      exact absurd heq.1.symm (h₂ b (List.mem_cons_self b bs))
  | cons a as ih =>
    intro l₂ t₁ t₂ h₁ h₂ heq
    cases l₂ with
    | nil =>
      simp only [List.cons_append, List.nil_append, List.cons.injEq] at heq
      exact absurd heq.1 (h₁ a (List.mem_cons_self a as))
    | cons b bs =>
      simp only [List.cons_append, List.cons.injEq] at heq
      have := ih bs t₁ t₂ (fun c hc => h₁ c (List.mem_cons_of_mem a hc))
        (fun c hc => h₂ c (List.mem_cons_of_mem b hc)) heq.2
      exact ⟨by rw [heq.1, this.1], this.2⟩

theorem natDash_inj {m n : Nat} {s t : String}
    (h : Nat.repr m ++ "-" ++ s = Nat.repr n ++ "-" ++ t) : m = n ∧ s = t := by
  have hdata : (Nat.repr m).data ++ '-' :: s.data = (Nat.repr n).data ++ '-' :: t.data := by
    have := congrArg String.data h
    simpa [String.data_append] using this
  have hm : ∀ c ∈ (Nat.repr m).data, c ≠ '-' := by
    intro c hc
    have := repr_data_digits hc
    intro hcon
    rw [hcon] at this
    exact absurd this (by decide)
  have hn : ∀ c ∈ (Nat.repr n).data, c ≠ '-' := by
    intro c hc
    have := repr_data_digits hc
    intro hcon
    rw [hcon] at this
    exact absurd this (by decide)
  have := append_sep_inj _ _ _ _ hm hn hdata
  refine ⟨repr_injective (String.ext this.1), String.ext this.2⟩

/-! ## The code-point orders are total preorders -/

theorem charToNat_inj {a b : Char} (h : a.toNat = b.toNat) : a = b :=
  Char.ext (UInt32.ext h)

theorem lexLeB_refl : ∀ l, lexLeB l l = true
  | [] => rfl
  | a :: as => by simp [lexLeB, lexLeB_refl as]

theorem lexLeB_total : ∀ l₁ l₂, lexLeB l₁ l₂ = true ∨ lexLeB l₂ l₁ = true := by
  intro l₁
  induction l₁ with
  | nil => intro l₂; left; cases l₂ <;> rfl
  | cons a as ih =>
    intro l₂
    cases l₂ with
    | nil => right; rfl
    | cons b bs =>
      by_cases h1 : a.toNat < b.toNat
      · left; simp [lexLeB, h1]
      · by_cases h2 : a.toNat = b.toNat
        · rcases ih bs with h | h
          · left; simp [lexLeB, h1, h2, h]
          · right
            have h3 : ¬b.toNat < a.toNat := by omega
            simp [lexLeB, h3, h2.symm, h]
        · right
          have h3 : b.toNat < a.toNat := by omega
          simp [lexLeB, h3]

theorem lexLeB_trans : ∀ l₁ l₂ l₃, lexLeB l₁ l₂ = true → lexLeB l₂ l₃ = true →
    lexLeB l₁ l₃ = true := by
  intro l₁
  induction l₁ with
  | nil => intro l₂ l₃ _ _; cases l₃ <;> rfl
  | cons a as ih =>
    intro l₂ l₃ h12 h23
    cases l₂ with
    | nil => simp [lexLeB] at h12
    | cons b bs =>
      cases l₃ with
      | nil => simp [lexLeB] at h23
      | cons c cs =>
        by_cases hab : a.toNat < b.toNat
        · by_cases hbc : b.toNat < c.toNat
          · have h : a.toNat < c.toNat := by omega
            simp [lexLeB, h]
          · by_cases hbc2 : b.toNat = c.toNat
            · have h : a.toNat < c.toNat := by omega
              simp [lexLeB, h]
            · simp [lexLeB, hbc, hbc2] at h23
        · by_cases hab2 : a.toNat = b.toNat
          · by_cases hbc : b.toNat < c.toNat
            · have h : a.toNat < c.toNat := by omega
              simp [lexLeB, h]
            · by_cases hbc2 : b.toNat = c.toNat
              · have h3 : ¬a.toNat < c.toNat := by omega
                have h4 : a.toNat = c.toNat := by omega
                simp [lexLeB, hab, hab2] at h12
                simp [lexLeB, hbc, hbc2] at h23
                simp only [lexLeB]
                rw [if_neg h3, if_pos h4]
                exact ih bs cs h12 h23
              · simp [lexLeB, hbc, hbc2] at h23
          · simp [lexLeB, hab, hab2] at h12

theorem lexLeB_antisymm : ∀ l₁ l₂, lexLeB l₁ l₂ = true → lexLeB l₂ l₁ = true →
    l₁ = l₂ := by
  intro l₁
  induction l₁ with
  | nil =>
    intro l₂ _ h21
    cases l₂ with
    | nil => rfl
    | cons b bs => simp [lexLeB] at h21
  | cons a as ih =>
    intro l₂ h12 h21
    cases l₂ with
    | nil => simp [lexLeB] at h12
    | cons b bs =>
      by_cases hab : a.toNat < b.toNat
      · have h3 : ¬b.toNat < a.toNat := by omega
        have h4 : ¬b.toNat = a.toNat := by omega
        simp [lexLeB, h3, h4] at h21
      · by_cases hab2 : a.toNat = b.toNat
        · have h3 : ¬b.toNat < a.toNat := by omega
          simp [lexLeB, hab, hab2] at h12
          simp [lexLeB, h3, hab2.symm] at h21
          rw [charToNat_inj hab2, ih bs h12 h21]
        · simp [lexLeB, hab, hab2] at h12

theorem lexLeB_ne_lt : ∀ l₁ l₂, lexLeB l₁ l₂ = true → l₁ ≠ l₂ → lexLtB l₁ l₂ = true := by
  intro l₁
  induction l₁ with
  | nil =>
    intro l₂ _ hne
    cases l₂ with
    | nil => exact absurd rfl hne
    | cons b bs => rfl
  | cons a as ih =>
    intro l₂ h12 hne
    cases l₂ with
    | nil => simp [lexLeB] at h12
    | cons b bs =>
      by_cases hab : a.toNat < b.toNat
      · simp [lexLtB, hab]
      · by_cases hab2 : a.toNat = b.toNat
        · have hchar : a = b := charToNat_inj hab2
          have htl : as ≠ bs := by
            intro h
            exact hne (by rw [hchar, h])
          simp [lexLeB, hab, hab2] at h12
          simp only [lexLtB]
          rw [if_neg hab, if_pos hab2]
          exact ih bs h12 htl
        · simp [lexLeB, hab, hab2] at h12

theorem lexLtB_asymm : ∀ l₁ l₂, lexLtB l₁ l₂ = true → lexLtB l₂ l₁ = true → False := by
  intro l₁
  induction l₁ with
  | nil =>
    intro l₂ _ h21
    cases l₂ with
    | nil => simp [lexLtB] at h21
    | cons b bs => simp [lexLtB] at h21
  | cons a as ih =>
    intro l₂ h12 h21
    cases l₂ with
    | nil => simp [lexLtB] at h12
    | cons b bs =>
      by_cases hab : a.toNat < b.toNat
      · have h3 : ¬b.toNat < a.toNat := by omega
        have h4 : ¬b.toNat = a.toNat := by omega
        simp [lexLtB, h3, h4] at h21
      · by_cases hab2 : a.toNat = b.toNat
        · have h3 : ¬b.toNat < a.toNat := by omega
          simp [lexLtB, hab, hab2] at h12
          simp [lexLtB, h3, hab2.symm] at h21
          exact ih bs h12 h21
        · simp [lexLtB, hab, hab2] at h12

theorem pairLEb_total (a b : Nat × String) : pairLEb a b = true ∨ pairLEb b a = true := by
  unfold pairLEb
  rcases Nat.lt_trichotomy a.1 b.1 with h | h | h
  · left; simp [Nat.blt_eq, h]
  · rcases lexLeB_total a.2.data b.2.data with hs | hs
    · left; simp [Nat.blt_eq, h, strLeB, hs]
    · right; simp [Nat.blt_eq, h.symm, strLeB, hs]
  · right; simp [Nat.blt_eq, h]

theorem pairLEb_trans {a b c : Nat × String} (h₁ : pairLEb a b = true)
    (h₂ : pairLEb b c = true) : pairLEb a c = true := by
  unfold pairLEb at h₁ h₂ ⊢
  simp only [Bool.or_eq_true, Bool.and_eq_true, Nat.blt_eq, beq_iff_eq] at h₁ h₂ ⊢
  rcases h₁ with h₁ | ⟨h₁e, h₁s⟩
  · rcases h₂ with h₂ | ⟨h₂e, _⟩
    · exact Or.inl (by omega)
    · exact Or.inl (by omega)
  · rcases h₂ with h₂ | ⟨h₂e, h₂s⟩
    · exact Or.inl (by omega)
    · exact Or.inr ⟨by omega, lexLeB_trans _ _ _ h₁s h₂s⟩

theorem keyLE_ne_lt {a b : Nat × String} (hle : keyLE a b) (hne : a ≠ b) : keyLT a b := by
  unfold keyLE pairLEb at hle
  simp only [Bool.or_eq_true, Bool.and_eq_true, Nat.blt_eq, beq_iff_eq] at hle
  rcases hle with h | ⟨he, hs⟩
  · exact Or.inl h
  · refine Or.inr ⟨he, lexLeB_ne_lt _ _ hs ?_⟩
    intro hdata
    apply hne
    exact Prod.ext he (String.ext hdata)

theorem keyLT_asymm {a b : Nat × String} (h₁ : keyLT a b) (h₂ : keyLT b a) : False := by
  rcases h₁ with h₁ | ⟨h₁e, h₁s⟩
  · rcases h₂ with h₂ | ⟨h₂e, _⟩
    · omega
    · omega
  · rcases h₂ with h₂ | ⟨h₂e, h₂s⟩
    · omega
    · exact lexLtB_asymm _ _ h₁s h₂s

/-! ## Association-list (Python dict) lemmas -/

theorem mem_insertRecord {m : List StoreRecord} {r x : StoreRecord}
    (h : x ∈ insertRecord m r) : x ∈ m ∨ x = r := by
  unfold insertRecord at h
  by_cases hc : (m.any fun y => y.block_id == r.block_id) = true
  · rw [if_pos hc] at h
    rcases List.mem_map.mp h with ⟨y, hy, hxy⟩
    by_cases hid : (y.block_id == r.block_id) = true
    · right; rw [← hxy, if_pos hid]
    · left; rw [← hxy, if_neg hid]; exact hy
  · rw [if_neg hc] at h
    rcases List.mem_append.mp h with h | h
    · exact Or.inl h
    · right; simpa using h

theorem keys_insertRecord_replace {m : List StoreRecord} {r : StoreRecord}
    (hc : (m.any fun y => y.block_id == r.block_id) = true) :
    (insertRecord m r).map (·.block_id) = m.map (·.block_id) := by
  unfold insertRecord
  rw [if_pos hc, List.map_map]
  apply List.map_congr_left
  intro y _
  by_cases hid : (y.block_id == r.block_id) = true
  · simp only [Function.comp_apply, if_pos hid]
    exact (beq_iff_eq.mp hid).symm
  · simp only [Function.comp_apply, if_neg hid]

theorem mem_keys_insertRecord {m : List StoreRecord} {r : StoreRecord} {a : String} :
    a ∈ (insertRecord m r).map (·.block_id) ↔
      a ∈ m.map (·.block_id) ∨ a = r.block_id := by
  by_cases hc : (m.any fun y => y.block_id == r.block_id) = true
  · rw [keys_insertRecord_replace hc]
    constructor
    · exact Or.inl
    · rintro (h | rfl)
      · exact h
      · rcases List.any_eq_true.mp hc with ⟨y, hy, hid⟩
        exact List.mem_map.mpr ⟨y, hy, beq_iff_eq.mp hid⟩
  · unfold insertRecord
    rw [if_neg hc, List.map_append]
    simp [List.mem_append]

theorem nodup_keys_insertRecord {m : List StoreRecord} {r : StoreRecord}
    (h : (m.map (·.block_id)).Nodup) :
    ((insertRecord m r).map (·.block_id)).Nodup := by
  by_cases hc : (m.any fun y => y.block_id == r.block_id) = true
  · rw [keys_insertRecord_replace hc]; exact h
  · unfold insertRecord
    rw [if_neg hc, List.map_append]
    simp only [List.map_cons, List.map_nil]
    rw [List.nodup_append]
    refine ⟨h, List.nodup_singleton _, ?_⟩
    intro a ha hb
    simp only [List.mem_singleton] at hb
    subst hb
    rcases List.mem_map.mp ha with ⟨y, hy, hid⟩
    exact hc (List.any_eq_true.mpr ⟨y, hy, beq_iff_eq.mpr hid⟩)

theorem mem_insertRecord_of_ne {m : List StoreRecord} {r x : StoreRecord}
    (hx : x ∈ m) (hne : x.block_id ≠ r.block_id) : x ∈ insertRecord m r := by
  unfold insertRecord
  by_cases hc : (m.any fun y => y.block_id == r.block_id) = true
  · rw [if_pos hc]
    have : (fun y => if y.block_id == r.block_id then r else y) x = x := by
      show (if x.block_id == r.block_id then r else x) = x
      rw [if_neg (by simpa using hne)]
    exact this ▸ List.mem_map_of_mem _ hx
  · rw [if_neg hc]
    exact List.mem_append_left _ hx

theorem mem_foldl_insertRecord :
    ∀ (l : List StoreRecord) (m : List StoreRecord) (x : StoreRecord),
      x ∈ l.foldl insertRecord m → x ∈ m ∨ x ∈ l := by
  intro l
  induction l with
  | nil => intro m x h; exact Or.inl h
  | cons r rs ih =>
    intro m x h
    rcases ih (insertRecord m r) x h with h | h
    · rcases mem_insertRecord h with h | h
      · exact Or.inl h
      · exact Or.inr (h ▸ List.mem_cons_self r rs)
    · exact Or.inr (List.mem_cons_of_mem r h)

theorem keys_mono_foldl_insertRecord :
    ∀ (l : List StoreRecord) (m : List StoreRecord) (a : String),
      a ∈ m.map (·.block_id) → a ∈ (l.foldl insertRecord m).map (·.block_id) := by
  intro l
  induction l with
  | nil => intro m a h; exact h
  | cons r rs ih =>
    intro m a h
    exact ih (insertRecord m r) a (mem_keys_insertRecord.mpr (Or.inl h))

theorem key_mem_foldl_insertRecord {l : List StoreRecord} {r : StoreRecord}
    (hr : r ∈ l) (m : List StoreRecord) :
    r.block_id ∈ (l.foldl insertRecord m).map (·.block_id) := by
  induction l generalizing m with
  | nil => exact absurd hr (List.not_mem_nil r)
  | cons y ys ih =>
    rcases List.mem_cons.mp hr with rfl | hr
    · exact keys_mono_foldl_insertRecord ys _ _ (mem_keys_insertRecord.mpr (Or.inr rfl))
    · exact ih hr (insertRecord m y)

theorem nodup_keys_foldl_insertRecord :
    ∀ (l : List StoreRecord) (m : List StoreRecord),
      (m.map (·.block_id)).Nodup → ((l.foldl insertRecord m).map (·.block_id)).Nodup := by
  intro l
  induction l with
  | nil => intro m h; exact h
  | cons r rs ih => intro m h; exact ih (insertRecord m r) (nodup_keys_insertRecord h)

theorem mem_keys_loadBlocks_aux :
    ∀ (rows m : List StoreRecord) (a : String),
      (a ∈ ((rows.foldl (fun m r => if r.block_id == "" then m else insertRecord m r) m).map
          (·.block_id)) ↔
        a ∈ m.map (·.block_id) ∨ ∃ r ∈ rows, r.block_id = a ∧ a ≠ "") := by
  intro rows
  induction rows with
  | nil => intro m a; simp
  | cons r rs ih =>
    intro m a
    simp only [List.foldl_cons]
    by_cases hid : (r.block_id == "") = true
    · rw [if_pos hid]
      rw [ih m a]
      constructor
      · rintro (h | h)
        · exact Or.inl h
        · exact Or.inr (by rcases h with ⟨x, hx, h⟩; exact ⟨x, List.mem_cons_of_mem r hx, h⟩)
      · rintro (h | ⟨x, hx, hxa, hane⟩)
        · exact Or.inl h
        · rcases List.mem_cons.mp hx with rfl | hx
          · exact absurd (by rw [← hxa]; exact beq_iff_eq.mp hid) hane
          · exact Or.inr ⟨x, hx, hxa, hane⟩
    · rw [if_neg hid]
      rw [ih (insertRecord m r) a]
      rw [mem_keys_insertRecord]
      constructor
      · rintro ((h | rfl) | h)
        · exact Or.inl h
        · exact Or.inr ⟨r, List.mem_cons_self r rs, rfl, by simpa using hid⟩
        · exact Or.inr (by rcases h with ⟨x, hx, h⟩; exact ⟨x, List.mem_cons_of_mem r hx, h⟩)
      · rintro (h | ⟨x, hx, hxa, hane⟩)
        · exact Or.inl (Or.inl h)
        · rcases List.mem_cons.mp hx with rfl | hx
          · exact Or.inl (Or.inr hxa.symm)
          · exact Or.inr ⟨x, hx, hxa, hane⟩

theorem mem_keys_loadBlocks {rows : List StoreRecord} {a : String} :
    a ∈ (loadBlocks rows).map (·.block_id) ↔
      (∃ r ∈ rows, r.block_id = a) ∧ a ≠ "" := by
  unfold loadBlocks
  rw [mem_keys_loadBlocks_aux rows [] a]
  simp only [List.map_nil, List.not_mem_nil, false_or]
  constructor
  · rintro ⟨x, hx, hxa, hane⟩; exact ⟨⟨x, hx, hxa⟩, hane⟩
  · rintro ⟨⟨x, hx, hxa⟩, hane⟩; exact ⟨x, hx, hxa, hane⟩

theorem nodup_keys_loadBlocks (rows : List StoreRecord) :
    ((loadBlocks rows).map (·.block_id)).Nodup := by
  unfold loadBlocks
  have : ∀ (l m : List StoreRecord), (m.map (·.block_id)).Nodup →
      ((l.foldl (fun m r => if r.block_id == "" then m else insertRecord m r) m).map
        (·.block_id)).Nodup := by
    intro l
    induction l with
    | nil => intro m h; exact h
    | cons r rs ih =>
      intro m h
      simp only [List.foldl_cons]
      by_cases hid : (r.block_id == "") = true
      · rw [if_pos hid]; exact ih m h
      · rw [if_neg hid]; exact ih (insertRecord m r) (nodup_keys_insertRecord h)
  exact this rows [] (by simp)

theorem mem_loadBlocks {rows : List StoreRecord} {x : StoreRecord}
    (h : x ∈ loadBlocks rows) : x ∈ rows := by
  unfold loadBlocks at h
  have : ∀ (l m : List StoreRecord), x ∈ l.foldl
      (fun m r => if r.block_id == "" then m else insertRecord m r) m → x ∈ m ∨ x ∈ l := by
    intro l
    induction l with
    | nil => intro m h; exact Or.inl h
    | cons r rs ih =>
      intro m h
      simp only [List.foldl_cons] at h
      by_cases hid : (r.block_id == "") = true
      · rw [if_pos hid] at h
        rcases ih m h with h | h
        · exact Or.inl h
        · exact Or.inr (List.mem_cons_of_mem r h)
      · rw [if_neg hid] at h
        rcases ih (insertRecord m r) h with h | h
        · rcases mem_insertRecord h with h | h
          · exact Or.inl h
          · exact Or.inr (h ▸ List.mem_cons_self r rs)
        · exact Or.inr (List.mem_cons_of_mem r h)
  rcases this rows [] h with h | h
  · exact absurd h (List.not_mem_nil x)
  · exact h

/-! ## Shape of the reconciliation result -/

theorem foldl_classify (ex : List StoreRecord) :
    ∀ (plan : List BlockDef) (acc : Reconciled),
      plan.foldl (classify ex) acc =
        ⟨acc.toCache ++ plan.filterMap (cacheSel ex),
         acc.toUpdate ++ plan.filterMap (updateSel ex),
         acc.toGenerate ++ plan.filterMap (genSel ex)⟩ := by
  intro plan
  induction plan with
  | nil => intro acc; simp
  | cons d ds ih =>
    intro acc
    simp only [List.foldl_cons, List.filterMap_cons, ih]
    unfold classify cacheSel updateSel genSel
    cases hf : ex.find? (fun r => r.block_id == d.block_id) with
    | some r => simp [hf]
    | none =>
      cases hg : ex.find? (fun r => startKeyRec r == startKeyDef d) with
      | some r => simp [hf, hg]
      | none => simp [hf, hg]

theorem reconcile_eq (plan : List BlockDef) (ex : List StoreRecord) :
    reconcile plan ex =
      ⟨plan.filterMap (cacheSel ex), plan.filterMap (updateSel ex),
       plan.filterMap (genSel ex)⟩ := by
  unfold reconcile
  rw [foldl_classify]
  simp

/-! ## Planner lemmas -/

theorem grabGroups_append (minCount : Nat) :
    ∀ (gs : List Group) (total : Nat),
      (grabGroups minCount total gs).1 ++ (grabGroups minCount total gs).2 = gs := by
  intro gs
  induction gs with
  | nil => intro total; simp [grabGroups]
  | cons g rest ih =>
    intro total
    simp only [grabGroups]
    by_cases h : total < minCount
    · rw [if_pos h]
      simpa using ih (total + notesCount g.2)
    · rw [if_neg h]
      simp

theorem grabGroups_cons_pos {minCount : Nat} (h : 0 < minCount) (g : Group)
    (gs : List Group) :
    grabGroups minCount 0 (g :: gs) =
      ((g :: (grabGroups minCount (notesCount g.2) gs).1),
        (grabGroups minCount (notesCount g.2) gs).2) := by
  simp [grabGroups, h]

theorem splitGo_flatten {minCount : Nat} (h : 0 < minCount) :
    ∀ (fuel : Nat) (gs : List Group), gs.length ≤ fuel →
      (splitGo minCount fuel gs).flatten = gs := by
  intro fuel
  induction fuel with
  | zero =>
    intro gs hlen
    rw [List.length_eq_zero.mp (Nat.le_zero.mp hlen)]
    rfl
  | succ fuel ih =>
    intro gs hlen
    cases gs with
    | nil => rfl
    | cons g rest =>
      simp only [splitGo]
      rw [grabGroups_cons_pos h]
      simp only [if_neg (List.cons_ne_nil g _), List.flatten_cons]
      have happ := grabGroups_append minCount rest (notesCount g.2)
      have hlen2 : (grabGroups minCount (notesCount g.2) rest).2.length ≤ fuel := by
        have := congrArg List.length happ
        simp only [List.length_append] at this
        simp only [List.length_cons] at hlen
        omega
      rw [ih _ hlen2]
      simpa using congrArg (g :: ·) happ

theorem splitGo_ne_nil {minCount : Nat} (h : 0 < minCount) :
    ∀ (fuel : Nat) (gs : List Group) (c : List Group),
      c ∈ splitGo minCount fuel gs → c ≠ [] := by
  intro fuel
  induction fuel with
  | zero => intro gs c hc; simp [splitGo] at hc
  | succ fuel ih =>
    intro gs c hc
    cases gs with
    | nil => simp [splitGo] at hc
    | cons g rest =>
      simp only [splitGo] at hc
      rw [grabGroups_cons_pos h] at hc
      simp only [if_neg (List.cons_ne_nil g _)] at hc
      rcases List.mem_cons.mp hc with rfl | hc
      · exact List.cons_ne_nil g _
      · exact ih _ c hc

theorem splitIntoChunks_flatten {minCount : Nat} (h : 0 < minCount) (gs : List Group) :
    (splitIntoChunks minCount gs).flatten = gs :=
  splitGo_flatten h gs.length gs (Nat.le_refl _)

theorem flatten_memberItems (cs : List (List Group)) :
    (cs.map memberItems).flatten = ((cs.flatten).map (·.2)).flatten := by
  induction cs with
  | nil => rfl
  | cons c cs ih =>
    simp only [List.map_cons, List.flatten_cons, List.map_append, List.flatten_append, ih]
    rfl

theorem flatten_snd_addToGroups (gs : List Group) (u : Nat) (x : InputItem) :
    (((addToGroups gs u x).map (·.2)).flatten).Perm
      (((gs.map (·.2)).flatten) ++ [x]) := by
  induction gs with
  | nil => simp [addToGroups]
  | cons g rest ih =>
    rcases g with ⟨k, rows⟩
    simp only [addToGroups]
    by_cases h : k = u
    · rw [if_pos h]
      simp only [List.map_cons, List.flatten_cons]
      rw [List.append_assoc, List.append_assoc]
      exact List.Perm.append_left rows List.perm_append_comm
    · rw [if_neg h]
      simp only [List.map_cons, List.flatten_cons]
      rw [List.append_assoc]
      exact List.Perm.append_left rows ih

theorem flatten_snd_foldl_addToGroups :
    ∀ (items : List InputItem) (acc : List Group),
      (((items.foldl (fun gs x => addToGroups gs x.chapterUid x) acc).map (·.2)).flatten).Perm
        (((acc.map (·.2)).flatten) ++ items) := by
  intro items
  induction items with
  | nil => intro acc; simp
  | cons x xs ih =>
    intro acc
    simp only [List.foldl_cons]
    have h1 := ih (addToGroups acc x.chapterUid x)
    have h2 : ((((addToGroups acc x.chapterUid x).map (·.2)).flatten) ++ xs).Perm
        ((((acc.map (·.2)).flatten) ++ [x]) ++ xs) :=
      List.Perm.append_right xs (flatten_snd_addToGroups acc x.chapterUid x)
    have h3 : (((acc.map (·.2)).flatten) ++ [x]) ++ xs =
        ((acc.map (·.2)).flatten) ++ (x :: xs) := by simp
    rw [← h3]
    exact h1.trans h2

theorem flatten_snd_groupRows (items : List InputItem) :
    ((((groupRows items).map (·.2)).flatten)).Perm items := by
  have := flatten_snd_foldl_addToGroups items []
  simpa [groupRows] using this

theorem mem_keys_addToGroups {gs : List Group} {u v : Nat} {x : InputItem} :
    v ∈ (addToGroups gs u x).map (·.1) ↔ v ∈ gs.map (·.1) ∨ v = u := by
  induction gs with
  | nil => simp [addToGroups]
  | cons g rest ih =>
    rcases g with ⟨k, rows⟩
    simp only [addToGroups]
    by_cases h : k = u
    · rw [if_pos h]
      subst h
      simp only [List.map_cons, List.mem_cons]
      tauto
    · rw [if_neg h]
      simp only [List.map_cons, List.mem_cons, ih]
      tauto

theorem nodup_keys_addToGroups {gs : List Group} {u : Nat} {x : InputItem}
    (h : (gs.map (·.1)).Nodup) : ((addToGroups gs u x).map (·.1)).Nodup := by
  induction gs with
  | nil => simp [addToGroups]
  | cons g rest ih =>
    rcases g with ⟨k, rows⟩
    simp only [List.map_cons, List.nodup_cons] at h
    simp only [addToGroups]
    by_cases hk : k = u
    · rw [if_pos hk]
      simp only [List.map_cons, List.nodup_cons]
      exact h
    · rw [if_neg hk]
      simp only [List.map_cons, List.nodup_cons]
      refine ⟨?_, ih h.2⟩
      rw [mem_keys_addToGroups]
      rintro (hc | rfl)
      · exact h.1 hc
      · exact hk rfl

theorem nodup_keys_groupRows (items : List InputItem) :
    (((groupRows items)).map (·.1)).Nodup := by
  have : ∀ (l : List InputItem) (acc : List Group), (acc.map (·.1)).Nodup →
      (((l.foldl (fun gs x => addToGroups gs x.chapterUid x) acc)).map (·.1)).Nodup := by
    intro l
    induction l with
    | nil => intro acc h; exact h
    | cons x xs ih =>
      intro acc h
      exact ih _ (nodup_keys_addToGroups h)
  exact this items [] (by simp)

theorem pairwise_lt_groupByChapters (items : List InputItem) :
    (groupByChapters items).Pairwise (fun g₁ g₂ : Group => g₁.1 < g₂.1) := by
  haveI : IsTotal Group (fun g₁ g₂ : Group => g₁.1 ≤ g₂.1) :=
    ⟨fun a b => Nat.le_total a.1 b.1⟩
  haveI : IsTrans Group (fun g₁ g₂ : Group => g₁.1 ≤ g₂.1) :=
    ⟨fun _ _ _ hab hbc => Nat.le_trans hab hbc⟩
  have hsort : (groupByChapters items).Pairwise (fun g₁ g₂ : Group => g₁.1 ≤ g₂.1) :=
    List.sorted_insertionSort _ (groupRows items)
  have hnodup : ((groupByChapters items).map (·.1)).Nodup :=
    ((List.perm_insertionSort _ (groupRows items)).symm.map (·.1)).nodup
      (nodup_keys_groupRows items)
  have hne : (groupByChapters items).Pairwise (fun g₁ g₂ : Group => g₁.1 ≠ g₂.1) :=
    List.pairwise_map.mp hnodup
  exact (hsort.and hne).imp (fun h => Nat.lt_of_le_of_ne h.1 h.2)

theorem chain_startChapter :
    ∀ (cs : List (List Group)),
      (∀ c ∈ cs, c ≠ []) →
      ((cs.flatten).Pairwise (fun g₁ g₂ : Group => g₁.1 < g₂.1)) →
      cs.Chain' (fun c₁ c₂ => startChapterOf c₁ < startChapterOf c₂) := by
  intro cs
  induction cs with
  | nil => intro _ _; exact List.chain'_nil
  | cons c cs ih =>
    intro hne hp
    cases cs with
    | nil => exact List.chain'_singleton c
    | cons c₂ cs₂ =>
      simp only [List.flatten_cons] at hp
      rw [List.pairwise_append] at hp
      rcases hp with ⟨hp1, hp2, hcross⟩
      have hc : c ≠ [] := hne c (List.mem_cons_self _ _)
      have hc₂ : c₂ ≠ [] := hne c₂ (List.mem_cons_of_mem _ (List.mem_cons_self _ _))
      rcases List.exists_cons_of_ne_nil hc with ⟨a, as, rfl⟩
      rcases List.exists_cons_of_ne_nil hc₂ with ⟨b, bs, rfl⟩
      rw [List.chain'_cons]
      constructor
      · have hb : b ∈ ((b :: bs) :: cs₂).flatten := by
          simp [List.flatten_cons]
        exact hcross a (List.mem_cons_self _ _) b hb
      · refine ih (fun x hx => hne x (List.mem_cons_of_mem _ hx)) ?_
        simpa [List.flatten_cons] using hp2

theorem chunkMarkParts_ne_nil {c : List Group} (h : c ≠ []) : chunkMarkParts c ≠ [] := by
  rcases List.exists_cons_of_ne_nil h with ⟨g, rest, rfl⟩
  simp [chunkMarkParts, markNotesOfGroup]

theorem mkBlockDefs_map_group_idx :
    ∀ (cs : List (List Group)), (∀ c ∈ cs, chunkMarkParts c ≠ []) →
      ∀ i, (mkBlockDefs i cs).map (·.group_idx) = List.range' i cs.length := by
  intro cs
  induction cs with
  | nil => intro _ i; rfl
  | cons c cs ih =>
    intro h i
    simp only [mkBlockDefs, if_neg (h c (List.mem_cons_self _ _)), List.map_cons,
      List.length_cons, List.range'_succ]
    rw [ih (fun x hx => h x (List.mem_cons_of_mem _ hx)) (i + 1)]
    rfl

theorem mkBlockDefs_map_start_chapter :
    ∀ (cs : List (List Group)), (∀ c ∈ cs, chunkMarkParts c ≠ []) →
      ∀ i, (mkBlockDefs i cs).map (·.start_chapter) = cs.map startChapterOf := by
  intro cs
  induction cs with
  | nil => intro _ i; rfl
  | cons c cs ih =>
    intro h i
    simp only [mkBlockDefs, if_neg (h c (List.mem_cons_self _ _)), List.map_cons]
    rw [ih (fun x hx => h x (List.mem_cons_of_mem _ hx)) (i + 1)]
    rfl

theorem mem_mkBlockDefs :
    ∀ (cs : List (List Group)) (i : Nat) (d : BlockDef), d ∈ mkBlockDefs i cs →
      ∃ j c, c ∈ cs ∧ d = mkBlockDef j c := by
  intro cs
  induction cs with
  | nil => intro i d hd; exact absurd hd (List.not_mem_nil d)
  | cons c cs ih =>
    intro i d hd
    simp only [mkBlockDefs] at hd
    by_cases h : chunkMarkParts c = []
    · rw [if_pos h] at hd
      rcases ih (i + 1) d hd with ⟨j, c', hc', rfl⟩
      exact ⟨j, c', List.mem_cons_of_mem _ hc', rfl⟩
    · rw [if_neg h] at hd
      rcases List.mem_cons.mp hd with rfl | hd
      · exact ⟨i, c, List.mem_cons_self _ _, rfl⟩
      · rcases ih (i + 1) d hd with ⟨j, c', hc', rfl⟩
        exact ⟨j, c', List.mem_cons_of_mem _ hc', rfl⟩

/-! ## Distinctness of planned identities -/

theorem pairwise_lt_plan_start_chapter {items : List InputItem} {minCount : Nat}
    (h : 0 < minCount) :
    (planBlocks items minCount).Pairwise
      (fun d₁ d₂ => d₁.start_chapter < d₂.start_chapter) := by
  unfold planBlocks
  have hne : ∀ c ∈ splitIntoChunks minCount (groupByChapters items), c ≠ [] :=
    fun c hc => splitGo_ne_nil h _ _ c hc
  have hchain : (splitIntoChunks minCount (groupByChapters items)).Chain'
      (fun c₁ c₂ => startChapterOf c₁ < startChapterOf c₂) := by
    refine chain_startChapter _ hne ?_
    rw [splitIntoChunks_flatten h]
    exact pairwise_lt_groupByChapters items
  have hparts : ∀ c ∈ splitIntoChunks minCount (groupByChapters items),
      chunkMarkParts c ≠ [] := fun c hc => chunkMarkParts_ne_nil (hne c hc)
  have hmap := mkBlockDefs_map_start_chapter _ hparts 1
  have hchain2 : ((mkBlockDefs 1 (splitIntoChunks minCount (groupByChapters items))).map
      (·.start_chapter)).Chain' (· < ·) := by
    rw [hmap]
    exact (List.chain'_map startChapterOf).mpr hchain
  have hchain3 := (List.chain'_map (fun d : BlockDef => d.start_chapter)).mp hchain2
  haveI : IsTrans BlockDef (fun d₁ d₂ => d₁.start_chapter < d₂.start_chapter) :=
    ⟨fun _ _ _ hab hbc => Nat.lt_trans hab hbc⟩
  exact List.chain'_iff_pairwise.mp hchain3

theorem nodup_plan_startKeys {items : List InputItem} {minCount : Nat} (h : 0 < minCount) :
    ((planBlocks items minCount).map startKeyDef).Nodup := by
  apply List.pairwise_map.mpr
  refine (pairwise_lt_plan_start_chapter h).imp ?_
  intro d₁ d₂ hlt heq
  unfold startKeyDef at heq
  exact absurd (natDash_inj heq).1 (Nat.ne_of_lt hlt)

theorem plan_block_id_shape {items : List InputItem} {minCount : Nat} {d : BlockDef}
    (hd : d ∈ planBlocks items minCount) :
    ∃ s, d.block_id = Nat.repr d.start_chapter ++ "-" ++ s := by
  unfold planBlocks at hd
  rcases mem_mkBlockDefs _ _ _ hd with ⟨j, c, _, rfl⟩
  refine ⟨(chunkNoteIds c).head?.getD "0" ++ "-" ++ Nat.repr (endChapterOf c) ++ "-" ++
    (chunkNoteIds c).getLast?.getD "0", ?_⟩
  simp [mkBlockDef, mkBlockId, String.append_assoc]

theorem nodup_plan_ids {items : List InputItem} {minCount : Nat} (h : 0 < minCount) :
    ((planBlocks items minCount).map (·.block_id)).Nodup := by
  apply List.pairwise_map.mpr
  refine List.Pairwise.imp_of_mem ?_ (pairwise_lt_plan_start_chapter h)
  intro d₁ d₂ h₁ h₂ hlt heq
  rcases plan_block_id_shape h₁ with ⟨s₁, hs₁⟩
  rcases plan_block_id_shape h₂ with ⟨s₂, hs₂⟩
  rw [hs₁, hs₂] at heq
  exact absurd (natDash_inj heq).1 (Nat.ne_of_lt hlt)

theorem plan_id_ne_empty {items : List InputItem} {minCount : Nat} {d : BlockDef}
    (hd : d ∈ planBlocks items minCount) : d.block_id ≠ "" := by
  rcases plan_block_id_shape hd with ⟨s, hs⟩
  intro hcon
  rw [hcon] at hs
  have := congrArg String.data hs
  simp [String.data_append] at this

/-- C6: for any input items and any positive threshold, the planned chunks
partition the input: the union of all chunks' member items is a permutation
of the item list (no duplication, no omission), the chunks are contiguous
non-overlapping runs of the chapter sequence, the ordinals are `1, 2, …` in
plan order, and the plan order is strictly ascending in
`(startGroupKey, startSequenceKey)`. -/
theorem c6_planner_partition (items : List InputItem) (minCount : Nat)
    (h : 0 < minCount) :
    (((splitIntoChunks minCount (groupByChapters items)).map memberItems).flatten).Perm
        items ∧
      (splitIntoChunks minCount (groupByChapters items)).flatten = groupByChapters items ∧
      (planBlocks items minCount).map (·.group_idx) =
        List.range' 1 (splitIntoChunks minCount (groupByChapters items)).length ∧
      (planBlocks items minCount).Chain'
        (fun d₁ d₂ => keyLT (defStartPair d₁) (defStartPair d₂)) := by
  refine ⟨?_, splitIntoChunks_flatten h _, ?_, ?_⟩
  · rw [flatten_memberItems, splitIntoChunks_flatten h]
    have hperm : (((groupByChapters items).map (·.2)).flatten).Perm
        (((groupRows items).map (·.2)).flatten) :=
      ((List.perm_insertionSort _ (groupRows items)).map (·.2)).flatten
    exact hperm.trans (flatten_snd_groupRows items)
  · exact mkBlockDefs_map_group_idx _
      (fun c hc => chunkMarkParts_ne_nil (splitGo_ne_nil h _ _ c hc)) 1
  · have hp := @pairwise_lt_plan_start_chapter items minCount h
    have hp2 : (planBlocks items minCount).Pairwise
        (fun d₁ d₂ => keyLT (defStartPair d₁) (defStartPair d₂)) := by
      refine hp.imp ?_
      intro d₁ d₂ hlt
      exact Or.inl hlt
    exact hp2.chain'

/-- C7: the planner is deterministic — equal item lists and equal thresholds
yield the same sequence of chunk identities and the same chunk boundaries. -/
theorem c7_planner_deterministic (items₁ items₂ : List InputItem)
    (minCount₁ minCount₂ : Nat) (h₁ : items₁ = items₂) (h₂ : minCount₁ = minCount₂) :
    (planBlocks items₁ minCount₁).map (·.block_id) =
        (planBlocks items₂ minCount₂).map (·.block_id) ∧
      (planBlocks items₁ minCount₁).map
          (fun d => (d.start_chapter, d.start_note_id, d.end_chapter, d.end_note_id)) =
        (planBlocks items₂ minCount₂).map
          (fun d => (d.start_chapter, d.start_note_id, d.end_chapter, d.end_note_id)) := by
  subst h₁
  subst h₂
  exact ⟨rfl, rfl⟩

/-- Witness for `c6_planner_partition` at a concrete input. -/
theorem c6_planner_partition_witness :
    0 < 50 ∧
      ((((splitIntoChunks 50 (groupByChapters itemsTwoCh)).map memberItems).flatten).Perm
        itemsTwoCh) := by
  refine ⟨by decide, (c6_planner_partition itemsTwoCh 50 (by decide)).1⟩

/-- Witness for `c7_planner_deterministic` at a concrete input. -/
theorem c7_planner_deterministic_witness :
    (planBlocks itemsTwoCh 50).map (·.block_id) =
      (planBlocks itemsTwoCh 50).map (·.block_id) :=
  (c7_planner_deterministic itemsTwoCh itemsTwoCh 50 50 rfl rfl).1

/-! ## Save-step lemmas -/

theorem startKeyRec_freshRecord (gen : BlockDef → String × String) (now : String)
    (d : BlockDef) : startKeyRec (freshRecord gen now d) = startKeyDef d := rfl

theorem startKeyRec_updateRecord (gen : BlockDef → String × String) (now : String)
    (p : BlockDef × StoreRecord) :
    startKeyRec (updateRecord gen now p) = startKeyDef p.1 := rfl

theorem mem_newBlocks {gen : BlockDef → String × String} {now : String} {plan : List BlockDef}
    {existing : List StoreRecord} {x : StoreRecord}
    (h : x ∈ newBlocks gen now (reconcile plan existing)) :
    ∃ d ∈ plan, startKeyRec x = startKeyDef d ∧ x.block_id = d.block_id ∧
      existing.find? (fun r => r.block_id == d.block_id) = none := by
  unfold newBlocks at h
  rw [reconcile_eq] at h
  rcases List.mem_append.mp h with h | h
  · rcases List.mem_map.mp h with ⟨dg, hdg, rfl⟩
    rcases List.mem_filterMap.mp hdg with ⟨d, hd, hsel⟩
    unfold genSel at hsel
    cases hf : existing.find? (fun r => r.block_id == d.block_id) with
    | some r => rw [hf] at hsel; exact absurd hsel (by simp)
    | none =>
      cases hg : existing.find? (fun r => startKeyRec r == startKeyDef d) with
      | some r => rw [hf, hg] at hsel; exact absurd hsel (by simp)
      | none =>
        rw [hf, hg] at hsel
        have h2 : d = dg := by simpa using hsel
        subst h2
        exact ⟨_, hd, rfl, rfl, hf⟩
  · rcases List.mem_map.mp h with ⟨p, hp, rfl⟩
    rcases List.mem_filterMap.mp hp with ⟨d, hd, hsel⟩
    unfold updateSel at hsel
    cases hf : existing.find? (fun r => r.block_id == d.block_id) with
    | some r => rw [hf] at hsel; exact absurd hsel (by simp)
    | none =>
      rw [hf] at hsel
      cases hg : existing.find? (fun r => startKeyRec r == startKeyDef d) with
      | some r =>
        rw [hg] at hsel
        have hpd : p = (d, r) := by simpa using hsel.symm
        subst hpd
        exact ⟨d, hd, rfl, rfl, hf⟩
      | none => rw [hg] at hsel; exact absurd hsel (by simp)

theorem mem_saveBlocks_startKey {existing : List StoreRecord} {plan : List BlockDef}
    {gen : BlockDef → String × String} {now : String} {x : StoreRecord}
    (h : x ∈ saveBlocks existing plan (reconcile plan existing)
      (newBlocks gen now (reconcile plan existing)) now) :
    startKeyRec x ∈ plan.map startKeyDef := by
  unfold saveBlocks at h
  have h2 : x ∈ buildSaveMap existing plan (reconcile plan existing)
      (newBlocks gen now (reconcile plan existing)) now :=
    (List.perm_insertionSort _ _).mem_iff.mp h
  unfold buildSaveMap at h2
  rcases mem_foldl_insertRecord _ _ _ h2 with h3 | h3
  · rw [← List.foldl_map (fun r : StoreRecord => { r with updated_at := now })
      insertRecord] at h3
    rcases mem_foldl_insertRecord _ _ _ h3 with h4 | h4
    · exact absurd h4 (List.not_mem_nil x)
    · rcases List.mem_map.mp h4 with ⟨r, hr, rfl⟩
      have hf := List.mem_filter.mp hr
      have hkey : (plan.map startKeyDef).contains (startKeyRec r) = true := by
        have := hf.2
        simp only [Bool.and_eq_true] at this
        exact this.2
      have : startKeyRec r ∈ plan.map startKeyDef := by simpa using hkey
      simpa [startKeyRec] using this
  · rcases mem_newBlocks h3 with ⟨d, hd, hkey, _, _⟩
    rw [hkey]
    exact List.mem_map_of_mem _ hd

/-- C3: every record of the rewritten store has the StartKey of some planned
chunk; consequently a loaded record whose StartKey matches no planned chunk
(an obsolete record, e.g. one absorbed into its predecessor by re-planning)
is absent from the persisted store. -/
theorem c3_obsolete_records_dropped (existing : List StoreRecord) (plan : List BlockDef)
    (gen : BlockDef → String × String) (now : String) :
    (∀ x ∈ saveBlocks existing plan (reconcile plan existing)
        (newBlocks gen now (reconcile plan existing)) now,
      startKeyRec x ∈ plan.map startKeyDef) ∧
      (∀ r : StoreRecord, startKeyRec r ∉ plan.map startKeyDef →
        r ∉ saveBlocks existing plan (reconcile plan existing)
          (newBlocks gen now (reconcile plan existing)) now) := by
  refine ⟨fun x hx => mem_saveBlocks_startKey hx, ?_⟩
  intro r hr hmem
  exact hr (mem_saveBlocks_startKey hmem)

/-- Witness for `c3_obsolete_records_dropped`: in the duplicate-StartKey
scenario the surviving carried-forward record's StartKey is a planned
StartKey. -/
theorem c3_obsolete_records_dropped_witness :
    startKeyRec { rowDupB with updated_at := "T1" } ∈
      (planBlocks itemsOneCh 50).map startKeyDef :=
  (c3_obsolete_records_dropped (loadBlocks [rowDupA, rowDupB]) (planBlocks itemsOneCh 50)
    genConst "T1").1 _ (by decide)

/-- C2: a planned chunk whose StartKey matches a stored record while its
identity matches no stored record is classified replace; it is regenerated
(it is on the Driver's update work list, and the produced record carries the
oracle's output), the matched old record's `created_at` is kept unchanged,
and `updated_at` is set to the current time. -/
theorem c2_replace_lineage (plan : List BlockDef) (existing : List StoreRecord)
    (d : BlockDef) (r : StoreRecord) (gen : BlockDef → String × String) (now : String)
    (hd : d ∈ plan)
    (hno : existing.find? (fun x => x.block_id == d.block_id) = none)
    (hr : existing.find? (fun x => startKeyRec x == startKeyDef d) = some r) :
    (d, r) ∈ (reconcile plan existing).toUpdate ∧
      updateRecord gen now (d, r) ∈ newBlocks gen now (reconcile plan existing) ∧
      (updateRecord gen now (d, r)).block_id = d.block_id ∧
      (updateRecord gen now (d, r)).created_at = r.created_at ∧
      (updateRecord gen now (d, r)).updated_at = now ∧
      (updateRecord gen now (d, r)).markdown = (gen d).1 ∧
      (updateRecord gen now (d, r)).html = (gen d).2 := by
  have hsel : updateSel existing d = some (d, r) := by
    unfold updateSel
    rw [hno, hr]
    rfl
  have hmem : (d, r) ∈ (reconcile plan existing).toUpdate := by
    rw [reconcile_eq]
    exact List.mem_filterMap.mpr ⟨d, hd, hsel⟩
  refine ⟨hmem, ?_, rfl, rfl, rfl, rfl, rfl⟩
  unfold newBlocks
  exact List.mem_append_right _ (List.mem_map_of_mem _ hmem)

/-- Witness for `c2_replace_lineage` at a concrete input. -/
theorem c2_replace_lineage_witness :
    (mkBlockDef 1 [(1, [mkItem 1 "a" "x", mkItem 1 "b" "y"])], rowDupA) ∈
      (reconcile (planBlocks itemsOneCh 50) (loadBlocks [rowDupA, rowDupB])).toUpdate ∧
      (updateRecord genConst "T1"
        (mkBlockDef 1 [(1, [mkItem 1 "a" "x", mkItem 1 "b" "y"])], rowDupA)).created_at =
        rowDupA.created_at := by
  have h := c2_replace_lineage (planBlocks itemsOneCh 50) (loadBlocks [rowDupA, rowDupB])
    (mkBlockDef 1 [(1, [mkItem 1 "a" "x", mkItem 1 "b" "y"])]) rowDupA genConst "T1"
    (by decide) (by decide) (by decide)
  exact ⟨h.1, h.2.2.2.1⟩

/-- C10: the loaded store, the saved store, and a reload of the saved store
each contain at most one record per identity (`block_id`), because records
are accumulated in a map keyed by identity. -/
theorem c10_store_unique_identity (rows existing : List StoreRecord)
    (plan : List BlockDef) (rc : Reconciled) (nb : List StoreRecord) (now : String) :
    ((loadBlocks rows).map (·.block_id)).Nodup ∧
      ((saveBlocks existing plan rc nb now).map (·.block_id)).Nodup ∧
      ((loadBlocks (saveBlocks existing plan rc nb now)).map (·.block_id)).Nodup := by
  refine ⟨nodup_keys_loadBlocks rows, ?_, nodup_keys_loadBlocks _⟩
  unfold saveBlocks
  have hperm := (List.perm_insertionSort
    (fun r₁ r₂ => pairLEb (recSortKey r₁) (recSortKey r₂) = true)
    (buildSaveMap existing plan rc nb now)).map (·.block_id)
  refine hperm.symm.nodup ?_
  unfold buildSaveMap
  apply nodup_keys_foldl_insertRecord
  rw [← List.foldl_map (fun r : StoreRecord => { r with updated_at := now }) insertRecord]
  apply nodup_keys_foldl_insertRecord
  simp

/-! ## Second-run reuse (claim C1) -/

theorem plan_ids_in_saved {items : List InputItem} {minCount : Nat}
    {existingRaw : List StoreRecord} {gen : BlockDef → String × String} {now : String}
    (hmin : 0 < minCount)
    (H : ∀ r ∈ loadBlocks existingRaw, ∀ d ∈ planBlocks items minCount,
      r.block_id = d.block_id → startKeyRec r = startKeyDef d) :
    ∀ d ∈ planBlocks items minCount,
      ∃ x ∈ runSave gen now existingRaw items minCount, x.block_id = d.block_id := by
  intro d hd
  have hkeymem : ∀ a : String,
      a ∈ (buildSaveMap (loadBlocks existingRaw) (planBlocks items minCount)
          (reconcile (planBlocks items minCount) (loadBlocks existingRaw))
          (newBlocks gen now
            (reconcile (planBlocks items minCount) (loadBlocks existingRaw))) now).map
        (·.block_id) →
      ∃ x ∈ runSave gen now existingRaw items minCount, x.block_id = a := by
    intro a ha
    rcases List.mem_map.mp ha with ⟨x, hx, hxa⟩
    refine ⟨x, ?_, hxa⟩
    show x ∈ saveBlocks _ _ _ _ _
    unfold saveBlocks
    exact (List.perm_insertionSort _ _).mem_iff.mpr hx
  cases hf : (loadBlocks existingRaw).find? (fun x => x.block_id == d.block_id) with
  | some r =>
    have hrmem : r ∈ loadBlocks existingRaw := List.mem_of_find?_eq_some hf
    have hrbid : r.block_id = d.block_id := by simpa using List.find?_some hf
    have hkey : startKeyRec r = startKeyDef d := H r hrmem d hd hrbid
    have hnotold : r.block_id ∉
        ((reconcile (planBlocks items minCount) (loadBlocks existingRaw)).toUpdate.map
          (fun p => p.2.block_id)) := by
      intro hin
      rcases List.mem_map.mp hin with ⟨p, hp, hpbid⟩
      rw [reconcile_eq] at hp
      rcases List.mem_filterMap.mp hp with ⟨d', hd', hsel⟩
      unfold updateSel at hsel
      cases hfd : (loadBlocks existingRaw).find? (fun x => x.block_id == d'.block_id) with
      | some _ => rw [hfd] at hsel; exact absurd hsel (by simp)
      | none =>
        rw [hfd] at hsel
        cases hgd : (loadBlocks existingRaw).find?
            (fun x => startKeyRec x == startKeyDef d') with
        | none => rw [hgd] at hsel; exact absurd hsel (by simp)
        | some r' =>
          rw [hgd] at hsel
          have hp2 : p = (d', r') := by simpa using hsel.symm
          subst hp2
          have hr'mem : r' ∈ loadBlocks existingRaw := List.mem_of_find?_eq_some hgd
          have hr'key : startKeyRec r' = startKeyDef d' := by
            simpa using List.find?_some hgd
          have hr'r : r' = r :=
            List.inj_on_of_nodup_map (nodup_keys_loadBlocks existingRaw) hr'mem hrmem hpbid
          have hdd : d' = d :=
            List.inj_on_of_nodup_map (nodup_plan_startKeys hmin) hd' hd
              (by rw [← hr'key, hr'r, hkey])
          rw [hdd] at hfd
          rw [hfd] at hf
          exact absurd hf (by simp)
    have hkept : r ∈ (loadBlocks existingRaw).filter
        (fun x => !(((reconcile (planBlocks items minCount)
            (loadBlocks existingRaw)).toUpdate.map (fun p => p.2.block_id)).contains
            x.block_id) &&
          ((planBlocks items minCount).map startKeyDef).contains (startKeyRec x)) := by
      refine List.mem_filter.mpr ⟨hrmem, ?_⟩
      have h1 : (((reconcile (planBlocks items minCount)
          (loadBlocks existingRaw)).toUpdate.map (fun p => p.2.block_id)).contains
          r.block_id) = false := by
        simpa using hnotold
      have h2 : (((planBlocks items minCount).map startKeyDef).contains
          (startKeyRec r)) = true := by
        have : startKeyRec r ∈ (planBlocks items minCount).map startKeyDef := by
          rw [hkey]
          exact List.mem_map_of_mem _ hd
        simpa using this
      rw [h1, h2]
      rfl
    have hmemmap : ({ r with updated_at := now } : StoreRecord) ∈
        ((loadBlocks existingRaw).filter
          (fun x => !(((reconcile (planBlocks items minCount)
              (loadBlocks existingRaw)).toUpdate.map (fun p => p.2.block_id)).contains
              x.block_id) &&
            ((planBlocks items minCount).map startKeyDef).contains (startKeyRec x))).map
          (fun x => { x with updated_at := now }) :=
      List.mem_map_of_mem _ hkept
    have hkeys : ({ r with updated_at := now } : StoreRecord).block_id ∈
        ((((loadBlocks existingRaw).filter _).map
          (fun x => { x with updated_at := now })).foldl insertRecord []).map
        (·.block_id) := key_mem_foldl_insertRecord hmemmap []
    apply hkeymem
    rw [← hrbid]
    unfold buildSaveMap
    apply keys_mono_foldl_insertRecord
    rw [← List.foldl_map (fun x : StoreRecord => { x with updated_at := now }) insertRecord]
    exact hkeys
  | none =>
    have hnew : ∃ y ∈ newBlocks gen now
        (reconcile (planBlocks items minCount) (loadBlocks existingRaw)),
        y.block_id = d.block_id := by
      cases hg : (loadBlocks existingRaw).find?
          (fun x => startKeyRec x == startKeyDef d) with
      | some r' =>
        refine ⟨updateRecord gen now (d, r'), ?_, rfl⟩
        unfold newBlocks
        refine List.mem_append_right _ (List.mem_map_of_mem _ ?_)
        rw [reconcile_eq]
        refine List.mem_filterMap.mpr ⟨d, hd, ?_⟩
        unfold updateSel
        rw [hf, hg]
        rfl
      | none =>
        refine ⟨freshRecord gen now d, ?_, rfl⟩
        unfold newBlocks
        refine List.mem_append_left _ (List.mem_map_of_mem _ ?_)
        rw [reconcile_eq]
        refine List.mem_filterMap.mpr ⟨d, hd, ?_⟩
        unfold genSel
        rw [hf, hg]
    rcases hnew with ⟨y, hy, hybid⟩
    apply hkeymem
    rw [← hybid]
    unfold buildSaveMap
    exact key_mem_foldl_insertRecord hy _

/-- C1 counterexample: a store row whose `block_id` matches the plan exactly
but whose start-key columns disagree with it. The first run is successful
and performs zero generation calls (pure reuse), yet its save step drops the
row (its column StartKey `99-x` matches no planned StartKey), so the second
run on unchanged items performs one generation call instead of zero. -/
theorem c1_second_run_counterexample :
    llmCalls (reconcile (planBlocks itemsTwoCh 50) (loadBlocks [rowInconsistent])) = 0 ∧
      llmCalls (reconcile (planBlocks itemsTwoCh 50)
        (loadBlocks (runSave genConst "T1" [rowInconsistent] itemsTwoCh 50))) = 1 := by
  constructor
  · decide
  · decide

/-- C1 (amended): (1) a planned chunk whose identity exactly matches a
loaded record is classified reuse — it is on the cache list and on neither
Driver work list, so the external call is never invoked for it; (2) if every
loaded record that exactly matches a planned chunk also carries that chunk's
StartKey in its own start columns (true of every store this program writes
from these items, but not of an inconsistent store — see the
counterexample), then re-running reconciliation on unchanged items after a
save classifies every chunk reuse and the Generation Driver is invoked zero
times. -/
theorem c1_reuse_stability_amended :
    (∀ (plan : List BlockDef) (existing : List StoreRecord) (d : BlockDef)
        (r : StoreRecord), d ∈ plan →
        existing.find? (fun x => x.block_id == d.block_id) = some r →
        (d.block_id, r) ∈ (reconcile plan existing).toCache ∧
          d ∉ (reconcile plan existing).toGenerate ∧
          ∀ p ∈ (reconcile plan existing).toUpdate, p.1 ≠ d) ∧
      (∀ (items : List InputItem) (minCount : Nat) (existingRaw : List StoreRecord)
        (gen : BlockDef → String × String) (now : String),
        0 < minCount →
        (∀ r ∈ loadBlocks existingRaw, ∀ d ∈ planBlocks items minCount,
          r.block_id = d.block_id → startKeyRec r = startKeyDef d) →
        llmCalls (reconcile (planBlocks items minCount)
          (loadBlocks (runSave gen now existingRaw items minCount))) = 0) := by
  constructor
  · intro plan existing d r hd hr
    refine ⟨?_, ?_, ?_⟩
    · rw [reconcile_eq]
      refine List.mem_filterMap.mpr ⟨d, hd, ?_⟩
      unfold cacheSel
      rw [hr]
      rfl
    · intro hmem
      rw [reconcile_eq] at hmem
      rcases List.mem_filterMap.mp hmem with ⟨d', hd', hsel⟩
      unfold genSel at hsel
      cases hfd : existing.find? (fun x => x.block_id == d'.block_id) with
      | some _ => rw [hfd] at hsel; exact absurd hsel (by simp)
      | none =>
        cases hgd : existing.find? (fun x => startKeyRec x == startKeyDef d') with
        | some _ => rw [hfd, hgd] at hsel; exact absurd hsel (by simp)
        | none =>
          rw [hfd, hgd] at hsel
          have hd'd : d' = d := by simpa using hsel
          rw [hd'd] at hfd
          rw [hfd] at hr
          exact absurd hr (by simp)
    · intro p hp hpd
      rw [reconcile_eq] at hp
      rcases List.mem_filterMap.mp hp with ⟨d', hd', hsel⟩
      unfold updateSel at hsel
      cases hfd : existing.find? (fun x => x.block_id == d'.block_id) with
      | some _ => rw [hfd] at hsel; exact absurd hsel (by simp)
      | none =>
        cases hgd : existing.find? (fun x => startKeyRec x == startKeyDef d') with
        | none => rw [hfd, hgd] at hsel; exact absurd hsel (by simp)
        | some r' =>
          rw [hfd, hgd] at hsel
          have hp2 : p = (d', r') := by simpa using hsel.symm
          have hd'd : d' = d := by rw [← hpd, hp2]
          rw [hd'd] at hfd
          rw [hfd] at hr
          exact absurd hr (by simp)
  · intro items minCount existingRaw gen now hmin H
    have hplanids := @plan_ids_in_saved items minCount existingRaw gen now hmin H
    have hfind : ∀ d ∈ planBlocks items minCount,
        ∃ x ∈ loadBlocks (runSave gen now existingRaw items minCount),
          (x.block_id == d.block_id) = true := by
      intro d hd
      rcases hplanids d hd with ⟨x, hx, hxbid⟩
      have hne := plan_id_ne_empty hd
      have hkey : d.block_id ∈
          (loadBlocks (runSave gen now existingRaw items minCount)).map (·.block_id) :=
        mem_keys_loadBlocks.mpr ⟨⟨x, hx, hxbid⟩, hne⟩
      rcases List.mem_map.mp hkey with ⟨y, hy, hybid⟩
      exact ⟨y, hy, by simpa using hybid⟩
    unfold llmCalls
    rw [reconcile_eq]
    have hgen : (planBlocks items minCount).filterMap
        (genSel (loadBlocks (runSave gen now existingRaw items minCount))) = [] := by
      rw [List.filterMap_eq_nil_iff]
      intro d hd
      rcases hfind d hd with ⟨y, hy, hybid⟩
      unfold genSel
      cases hfd : (loadBlocks (runSave gen now existingRaw items minCount)).find?
          (fun x => x.block_id == d.block_id) with
      | some _ => rfl
      | none =>
        rcases List.find?_eq_none.mp hfd y hy with h
        exact absurd hybid h
    have hupd : (planBlocks items minCount).filterMap
        (updateSel (loadBlocks (runSave gen now existingRaw items minCount))) = [] := by
      rw [List.filterMap_eq_nil_iff]
      intro d hd
      rcases hfind d hd with ⟨y, hy, hybid⟩
      unfold updateSel
      cases hfd : (loadBlocks (runSave gen now existingRaw items minCount)).find?
          (fun x => x.block_id == d.block_id) with
      | some _ => rfl
      | none =>
        rcases List.find?_eq_none.mp hfd y hy with h
        exact absurd hybid h
    rw [hgen, hupd]
    rfl

/-- Witness for `c1_reuse_stability_amended` at concrete inputs. -/
theorem c1_reuse_stability_amended_witness :
    ((mkBlockDef 1 [(1, [mkItem 1 "a" "x", mkItem 1 "b" "y"])]).block_id,
        ({ rowDupA with block_id := "1-a-1-b" } : StoreRecord)) ∈
        (reconcile (planBlocks itemsOneCh 50)
          (loadBlocks [{ rowDupA with block_id := "1-a-1-b" }])).toCache ∧
      llmCalls (reconcile (planBlocks itemsTwoCh 50)
        (loadBlocks (runSave genConst "T1" [] itemsTwoCh 50))) = 0 := by
  constructor
  · exact (c1_reuse_stability_amended.1 (planBlocks itemsOneCh 50)
      (loadBlocks [{ rowDupA with block_id := "1-a-1-b" }])
      (mkBlockDef 1 [(1, [mkItem 1 "a" "x", mkItem 1 "b" "y"])])
      { rowDupA with block_id := "1-a-1-b" } (by decide) (by decide)).1
  · exact c1_reuse_stability_amended.2 itemsTwoCh 50 [] genConst "T1" (by decide)
      (by decide)

/-! ## Duplicate StartKeys in the store (claim C4) -/

theorem foldl_insertRecord_eq_append :
    ∀ (l acc : List StoreRecord),
      (∀ r ∈ l, ∀ x ∈ acc, x.block_id ≠ r.block_id) →
      (l.map (·.block_id)).Nodup →
      l.foldl insertRecord acc = acc ++ l := by
  intro l
  induction l with
  | nil => intro acc _ _; simp
  | cons r rs ih =>
    intro acc hdisj hnodup
    simp only [List.foldl_cons]
    have hins : insertRecord acc r = acc ++ [r] := by
      unfold insertRecord
      rw [if_neg ?_]
      intro hany
      rcases List.any_eq_true.mp hany with ⟨x, hx, hxb⟩
      exact hdisj r (List.mem_cons_self _ _) x hx (beq_iff_eq.mp hxb)
    rw [hins]
    simp only [List.map_cons, List.nodup_cons] at hnodup
    rw [ih (acc ++ [r]) ?_ hnodup.2]
    · simp
    · intro r' hr' x hx
      rcases List.mem_append.mp hx with hx | hx
      · exact hdisj r' (List.mem_cons_of_mem _ hr') x hx
      · simp only [List.mem_singleton] at hx
        subst hx
        intro hcon
        exact hnodup.1 (hcon ▸ List.mem_map_of_mem (·.block_id) hr')

theorem mem_foldl_insertRecord_of_no_key :
    ∀ (l m : List StoreRecord) (x : StoreRecord), x ∈ m →
      (∀ y ∈ l, y.block_id ≠ x.block_id) → x ∈ l.foldl insertRecord m := by
  intro l
  induction l with
  | nil => intro m x hx _; exact hx
  | cons y ys ih =>
    intro m x hx hkeys
    simp only [List.foldl_cons]
    refine ih _ x ?_ (fun z hz => hkeys z (List.mem_cons_of_mem _ hz))
    exact mem_insertRecord_of_ne hx
      (fun hcon => hkeys y (List.mem_cons_self _ _) hcon.symm)

/-- C4 counterexample: two loaded records share StartKey `1-a`; the plan
replaces the first (`1-a-1-zz`), but the second (`1-a-1-z2`) is carried into
the final persisted store (with refreshed `updated_at`) instead of being
treated as obsolete and dropped, contradicting the claim that every other
record with that StartKey is absent from the final store. -/
theorem c4_counterexample :
    ((reconcile (planBlocks itemsOneCh 50) (loadBlocks [rowDupA, rowDupB])).toUpdate.map
        (fun p => p.2.block_id)) = ["1-a-1-zz"] ∧
      ({ rowDupB with updated_at := "T1" } : StoreRecord) ∈
        runSave genConst "T1" [rowDupA, rowDupB] itemsOneCh 50 := by
  constructor
  · decide
  · decide

/-- C4 (amended): when several loaded records share a planned chunk's
StartKey, the first in store-iteration order is used as the replace match
(and only it is removed); every other record with that StartKey is NOT
dropped — it is carried forward into the final persisted store with its
`updated_at` refreshed, because its StartKey still matches a planned chunk
and only the matched record's id is on the removal list. -/
theorem c4_duplicate_startkey_amended (items : List InputItem) (minCount : Nat)
    (existingRaw : List StoreRecord) (gen : BlockDef → String × String) (now : String)
    (d : BlockDef) (r r' : StoreRecord)
    (hmin : 0 < minCount)
    (hd : d ∈ planBlocks items minCount)
    (hno : (loadBlocks existingRaw).find? (fun x => x.block_id == d.block_id) = none)
    (hr : (loadBlocks existingRaw).find? (fun x => startKeyRec x == startKeyDef d) = some r)
    (hr' : r' ∈ loadBlocks existingRaw)
    (hrkey : startKeyRec r' = startKeyDef d)
    (hrne : r' ≠ r) :
    (d, r) ∈ (reconcile (planBlocks items minCount) (loadBlocks existingRaw)).toUpdate ∧
      ({ r' with updated_at := now } : StoreRecord) ∈
        runSave gen now existingRaw items minCount := by
  have hup : (d, r) ∈ (reconcile (planBlocks items minCount)
      (loadBlocks existingRaw)).toUpdate := by
    rw [reconcile_eq]
    refine List.mem_filterMap.mpr ⟨d, hd, ?_⟩
    unfold updateSel
    rw [hno, hr]
    rfl
  refine ⟨hup, ?_⟩
  have hnotold : r'.block_id ∉
      ((reconcile (planBlocks items minCount) (loadBlocks existingRaw)).toUpdate.map
        (fun p => p.2.block_id)) := by
    intro hin
    rcases List.mem_map.mp hin with ⟨p, hp, hpbid⟩
    rw [reconcile_eq] at hp
    rcases List.mem_filterMap.mp hp with ⟨d', hd', hsel⟩
    unfold updateSel at hsel
    cases hfd : (loadBlocks existingRaw).find? (fun x => x.block_id == d'.block_id) with
    | some _ => rw [hfd] at hsel; exact absurd hsel (by simp)
    | none =>
      rw [hfd] at hsel
      cases hgd : (loadBlocks existingRaw).find?
          (fun x => startKeyRec x == startKeyDef d') with
      | none => rw [hgd] at hsel; exact absurd hsel (by simp)
      | some r'' =>
        rw [hgd] at hsel
        have hp2 : p = (d', r'') := by simpa using hsel.symm
        subst hp2
        have hr''mem : r'' ∈ loadBlocks existingRaw := List.mem_of_find?_eq_some hgd
        have hr''key : startKeyRec r'' = startKeyDef d' := by
          simpa using List.find?_some hgd
        have hr''r' : r'' = r' :=
          List.inj_on_of_nodup_map (nodup_keys_loadBlocks existingRaw) hr''mem hr' hpbid
        have hdd : d' = d :=
          List.inj_on_of_nodup_map (nodup_plan_startKeys hmin) hd' hd
            (by rw [← hr''key, hr''r', hrkey])
        rw [hdd] at hgd
        rw [hgd] at hr
        have : r'' = r := by simpa using hr
        exact hrne (by rw [← hr''r', this])
  have hkept : r' ∈ (loadBlocks existingRaw).filter
      (fun x => !(((reconcile (planBlocks items minCount)
          (loadBlocks existingRaw)).toUpdate.map (fun p => p.2.block_id)).contains
          x.block_id) &&
        ((planBlocks items minCount).map startKeyDef).contains (startKeyRec x)) := by
    refine List.mem_filter.mpr ⟨hr', ?_⟩
    have h1 : (((reconcile (planBlocks items minCount)
        (loadBlocks existingRaw)).toUpdate.map (fun p => p.2.block_id)).contains
        r'.block_id) = false := by simpa using hnotold
    have h2 : (((planBlocks items minCount).map startKeyDef).contains
        (startKeyRec r')) = true := by
      have : startKeyRec r' ∈ (planBlocks items minCount).map startKeyDef := by
        rw [hrkey]
        exact List.mem_map_of_mem _ hd
      simpa using this
    rw [h1, h2]
    rfl
  -- the kept records with refreshed timestamps enter the save map verbatim
  have hkeptsub : ((loadBlocks existingRaw).filter
      (fun x => !(((reconcile (planBlocks items minCount)
          (loadBlocks existingRaw)).toUpdate.map (fun p => p.2.block_id)).contains
          x.block_id) &&
        ((planBlocks items minCount).map startKeyDef).contains (startKeyRec x))).Sublist
      (loadBlocks existingRaw) := List.filter_sublist _
  have hkeptnodup : (((loadBlocks existingRaw).filter
      (fun x => !(((reconcile (planBlocks items minCount)
          (loadBlocks existingRaw)).toUpdate.map (fun p => p.2.block_id)).contains
          x.block_id) &&
        ((planBlocks items minCount).map startKeyDef).contains (startKeyRec x))).map
      (fun x : StoreRecord => { x with updated_at := now })).map (·.block_id)
      |>.Nodup := by
    rw [List.map_map]
    have heq : ((fun x : StoreRecord => x.block_id) ∘
        (fun x : StoreRecord => { x with updated_at := now })) =
        (fun x : StoreRecord => x.block_id) := rfl
    rw [heq]
    exact (nodup_keys_loadBlocks existingRaw).sublist (hkeptsub.map _)
  have hmemm : ({ r' with updated_at := now } : StoreRecord) ∈
      (((loadBlocks existingRaw).filter
        (fun x => !(((reconcile (planBlocks items minCount)
            (loadBlocks existingRaw)).toUpdate.map (fun p => p.2.block_id)).contains
            x.block_id) &&
          ((planBlocks items minCount).map startKeyDef).contains (startKeyRec x))).map
        (fun x : StoreRecord => { x with updated_at := now })).foldl insertRecord [] := by
    rw [foldl_insertRecord_eq_append _ [] (by simp) hkeptnodup, List.nil_append]
    exact List.mem_map_of_mem _ hkept
  have hnbkeys : ∀ y ∈ newBlocks gen now
      (reconcile (planBlocks items minCount) (loadBlocks existingRaw)),
      y.block_id ≠ ({ r' with updated_at := now } : StoreRecord).block_id := by
    intro y hy
    rcases mem_newBlocks hy with ⟨d', _, _, hybid, hfd'⟩
    intro hcon
    have : r' ∈ loadBlocks existingRaw ∧
        (r'.block_id == d'.block_id) = true := by
      refine ⟨hr', ?_⟩
      have : y.block_id = r'.block_id := hcon
      rw [hybid] at this
      simpa using this.symm
    rcases List.find?_eq_none.mp hfd' r' this.1 with h
    exact h this.2
  show ({ r' with updated_at := now } : StoreRecord) ∈ saveBlocks _ _ _ _ _
  unfold saveBlocks
  refine (List.perm_insertionSort _ _).mem_iff.mpr ?_
  unfold buildSaveMap
  refine mem_foldl_insertRecord_of_no_key _ _ _ ?_ hnbkeys
  rw [← List.foldl_map (fun x : StoreRecord => { x with updated_at := now }) insertRecord]
  exact hmemm

/-- Witness for `c4_duplicate_startkey_amended` at the concrete
duplicate-StartKey store. -/
theorem c4_duplicate_startkey_amended_witness :
    (mkBlockDef 1 [(1, [mkItem 1 "a" "x", mkItem 1 "b" "y"])], rowDupA) ∈
        (reconcile (planBlocks itemsOneCh 50) (loadBlocks [rowDupA, rowDupB])).toUpdate ∧
      ({ rowDupB with updated_at := "T1" } : StoreRecord) ∈
        runSave genConst "T1" [rowDupA, rowDupB] itemsOneCh 50 :=
  c4_duplicate_startkey_amended itemsOneCh 50 [rowDupA, rowDupB] genConst "T1"
    (mkBlockDef 1 [(1, [mkItem 1 "a" "x", mkItem 1 "b" "y"])]) rowDupA rowDupB
    (by decide) (by decide) (by decide) (by decide) (by decide) (by decide) (by decide)

/-! ## Corrupt store file (claim C5) -/

/-- C5 counterexample: a store file that exists but is unreadable (the
reader fails before yielding any row) does not abort the run — the loaded
store is empty and the single planned chunk of `itemsTwoCh` is generated,
i.e. external generation work happens after the corrupt load, and the
corrupt store is handled exactly like an empty one. -/
theorem c5_counterexample :
    loadCacheResult [] true = [] ∧ runGenerationCalls [] true itemsTwoCh 50 = 1 := by
  constructor
  · rfl
  · decide

/-- C5 (amended): a failure while reading the cache file is caught and only
printed; the run continues with the rows read before the failure (possibly
none) as the store, and behaves exactly as if the file had contained just
those rows — chunks missing from them are regenerated. -/
theorem c5_corrupt_load_amended (rowsRead : List StoreRecord) (items : List InputItem)
    (minCount : Nat) :
    loadCacheResult rowsRead true = loadBlocks rowsRead ∧
      runGenerationCalls rowsRead true items minCount =
        runGenerationCalls rowsRead false items minCount :=
  ⟨rfl, rfl⟩

/-! ## Assembly order (claim C8) -/

theorem lexLtB_irrefl : ∀ l : List Char, lexLtB l l = false
  | [] => rfl
  | a :: as => by simp [lexLtB, lexLtB_irrefl as]

theorem keyLT_irrefl (a : Nat × String) : ¬keyLT a a := by
  rintro (h | ⟨_, h⟩)
  · omega
  · rw [strLtB, lexLtB_irrefl] at h
    exact Bool.false_ne_true h

theorem pairwise_keyLE_assembleOrder (rows : List StoreRecord) :
    (assembleOrder rows).Pairwise
      (fun r₁ r₂ => pairLEb (recSortKey r₁) (recSortKey r₂) = true) := by
  haveI : IsTotal StoreRecord
      (fun r₁ r₂ => pairLEb (recSortKey r₁) (recSortKey r₂) = true) :=
    ⟨fun a b => pairLEb_total (recSortKey a) (recSortKey b)⟩
  haveI : IsTrans StoreRecord
      (fun r₁ r₂ => pairLEb (recSortKey r₁) (recSortKey r₂) = true) :=
    ⟨fun _ _ _ hab hbc => pairLEb_trans hab hbc⟩
  exact List.sorted_insertionSort _ rows

theorem pairwise_keyLT_assembleOrder (rows : List StoreRecord)
    (hnodup : (rows.map recSortKey).Nodup) :
    (assembleOrder rows).Pairwise
      (fun r₁ r₂ => keyLT (recSortKey r₁) (recSortKey r₂)) := by
  have hperm : (assembleOrder rows).Perm rows := List.perm_insertionSort _ _
  have hnodup2 : ((assembleOrder rows).map recSortKey).Nodup :=
    ((hperm.map recSortKey).symm).nodup hnodup
  have hne : (assembleOrder rows).Pairwise (fun r₁ r₂ => recSortKey r₁ ≠ recSortKey r₂) :=
    List.pairwise_map.mp hnodup2
  exact ((pairwise_keyLE_assembleOrder rows).and hne).imp
    (fun h => keyLE_ne_lt h.1 h.2)

/-- C8 counterexample: the duplicate-StartKey run of claim C4 produces a
final store in which two records share the sort key `(1, "a")`; the
assembled order is therefore not strictly increasing in
`(startGroupKey, startSequenceKey)`. -/
theorem c8_counterexample :
    assembleKeys (runSave genConst "T1" [rowDupA, rowDupB] itemsOneCh 50) =
        [(1, "a"), (1, "a")] ∧
      ¬(assembleKeys (runSave genConst "T1" [rowDupA, rowDupB] itemsOneCh 50)).Chain'
          keyLT := by
  have hkeys : assembleKeys (runSave genConst "T1" [rowDupA, rowDupB] itemsOneCh 50) =
      [(1, "a"), (1, "a")] := by decide
  refine ⟨hkeys, ?_⟩
  rw [hkeys]
  intro hchain
  exact keyLT_irrefl (1, "a") (List.chain'_cons.mp hchain).1

/-- C8 (amended): the assembled order is always non-decreasing in the sort
key `(int(startGroupKey), startSequenceKey)`; when the records' sort keys
are pairwise distinct it is strictly increasing, and the assembled sequence
is invariant under any permutation of the order in which the records were
inserted into the store map. -/
theorem c8_assembly_order_amended :
    (∀ rows : List StoreRecord, (assembleKeys rows).Pairwise keyLE) ∧
      (∀ rows : List StoreRecord, (rows.map recSortKey).Nodup →
        (assembleKeys rows).Pairwise keyLT ∧
          ∀ rows' : List StoreRecord, rows.Perm rows' →
            assembleOrder rows = assembleOrder rows') := by
  constructor
  · intro rows
    exact List.pairwise_map.mpr (pairwise_keyLE_assembleOrder rows)
  · intro rows hnodup
    constructor
    · exact List.pairwise_map.mpr (pairwise_keyLT_assembleOrder rows hnodup)
    · intro rows' hperm'
      have hnodup' : (rows'.map recSortKey).Nodup := (hperm'.map recSortKey).nodup hnodup
      haveI : IsAntisymm StoreRecord
          (fun r₁ r₂ => keyLT (recSortKey r₁) (recSortKey r₂)) :=
        ⟨fun a b hab hba => False.elim (keyLT_asymm hab hba)⟩
      have hpp : (assembleOrder rows).Perm (assembleOrder rows') :=
        (List.perm_insertionSort _ rows).trans
          (hperm'.trans (List.perm_insertionSort _ rows').symm)
      exact List.eq_of_perm_of_sorted hpp (pairwise_keyLT_assembleOrder rows hnodup)
        (pairwise_keyLT_assembleOrder rows' hnodup')

/-- Witness for `c8_assembly_order_amended` on a two-record store with
distinct sort keys, inserted in both orders. -/
theorem c8_assembly_order_amended_witness :
    (assembleKeys [rowDupA, rowInconsistent]).Pairwise keyLT ∧
      assembleOrder [rowDupA, rowInconsistent] =
        assembleOrder [rowInconsistent, rowDupA] := by
  have h := c8_assembly_order_amended.2 [rowDupA, rowInconsistent] (by decide)
  exact ⟨h.1, h.2 [rowInconsistent, rowDupA] (List.Perm.swap _ _ _)⟩

/-! ## `generate_outline` totality (claim C9) -/

/-- C9: for every pair of note strings, every retry budget, and every
behavior of the external call (valid HTML, invalid text on every attempt, or
an exception on every attempt — the oracle returns `Except`), the function
returns a dictionary that contains exactly the `markdown` and `html` keys
with string values; failures yield visible placeholder documents, and no
exception escapes (the embedding is a total function whose `except` arms are
the source's handlers). -/
theorem c9_generate_outline_total (template markNotes reviewNotes : String)
    (behavior : String → Nat → Except String String) (maxRetries : Nat) :
    ∃ md ht, generateOutline template markNotes reviewNotes behavior maxRetries =
      [("markdown", md), ("html", ht)] := by
  have hloop : ∀ (b : Nat → Except String String) (fuel attempt : Nat)
      (le lr : Option String),
      ∃ md ht, genLoop b maxRetries fuel attempt le lr =
        [("markdown", md), ("html", ht)] := by
    intro b fuel
    induction fuel with
    | zero => intro attempt le lr; exact ⟨_, _, rfl⟩
    | succ fuel ih =>
      intro attempt le lr
      show ∃ md ht, genLoop b maxRetries (fuel + 1) attempt le lr =
        [("markdown", md), ("html", ht)]
      rw [genLoop]
      by_cases h : attempt < maxRetries
      · rw [if_pos h]
        cases b attempt with
        | ok raw =>
          cases hv : validateAndCleanHtml (postProcess (pyStrip raw)) with
          | some htmlC =>
            simp only [hv]
            exact ⟨_, _, rfl⟩
          | none =>
            simp only [hv]
            by_cases h2 : attempt < maxRetries - 1
            · rw [if_pos h2]
              exact ih (attempt + 1) (some "HTML 格式验证失败") (some (pyStrip raw))
            · rw [if_neg h2]
              exact ⟨_, _, rfl⟩
        | error e =>
          show ∃ md ht,
            (if attempt < maxRetries - 1 then
                genLoop b maxRetries fuel (attempt + 1) (some e) lr
              else exceptionResult e lr) = [("markdown", md), ("html", ht)]
          by_cases h2 : attempt < maxRetries - 1
          · rw [if_pos h2]
            exact ih (attempt + 1) (some e) lr
          · rw [if_neg h2]
            exact ⟨_, _, rfl⟩
      · rw [if_neg h]
        exact ⟨_, _, rfl⟩
  exact hloop (behavior (buildPrompt template markNotes reviewNotes)) maxRetries 0 none none

end GenOutline
